import Mathlib

/-!
# Verification of the flask-gallery scan–parse–cache pipeline

Shallow embedding of `app.py` (a single-file Flask image gallery).  Strings are
modelled as `List Char` (Python compares strings by code point, which matches
`Char` ordering on `Char.toNat`).  The module embeds:

* the folder-name parser `parse_title_date` together with the four regular
  expressions `_cn_patterns ++ _iso_patterns`, translated pattern by pattern
  into deterministic backtracking matchers with Python `re` semantics
  (leftmost match, lazy `.+?`, greedy `\d{1,2}` and optional groups, `$` as
  end of input; `\d` and `\s` are modelled by their ASCII subsets, which is
  exact for every input considered here);
* the date helper `_to_date` with `datetime.date` validity (Gregorian
  calendar, years 1–9999);
* the extension filter `allowed_image`, the scanner `_scan_once` over an
  abstract directory tree, with Python's stable sorts modelled by
  `List.insertionSort` (a stable sort; a stable sort w.r.t. a total preorder
  is unique, so this agrees with CPython's stable `list.sort`);
* the 5-second TTL cache `get_catalog` with explicit state passing and a
  flag recording whether a rescan happened;
* the Jinja filter `jinja_cn_date`;
* the `/media/<path>` resolver over an abstract filesystem, including the
  containment check `p.relative_to(IMAGES_ROOT)` after `Path.resolve()`
  (modelled lexically; no symlinks) and the `isfile` check performed by
  `flask.send_from_directory`.
-/

/-! ## Python character classes and string helpers -/

/-- Python `\s` / `str.strip()` whitespace (ASCII subset). -/
def pySpace (c : Char) : Bool :=
  c == ' ' || c == '\t' || c == '\n' || c == '\r' || c == '\x0b' || c == '\x0c'

/-- Python `\d` (ASCII subset): decimal digits `0`–`9`. -/
def pyDigit (c : Char) : Bool :=
  c.isDigit

/-- Numeric value of a digit character. -/
def digitVal (c : Char) : Nat :=
  c.toNat - 48

/-- Value of a digit string, as computed by Python `int()` (leading zeros allowed). -/
def natOfDigits (l : List Char) : Nat :=
  l.foldl (fun n c => 10 * n + digitVal c) 0

/-- Python `str.strip()` with no arguments: drop whitespace from both ends. -/
def pyStripList (l : List Char) : List Char :=
  ((l.dropWhile pySpace).reverse.dropWhile pySpace).reverse

/-- Does the list contain a newline (which `.` never matches in Python `re`)? -/
def hasNewline (l : List Char) : Bool :=
  l.any (fun c => c == '\n')

/-- Strict lexicographic order on `List Char` by code point: Python `str <`. -/
def lexLt : List Char → List Char → Bool
  | [], [] => false
  | [], _ :: _ => true
  | _ :: _, [] => false
  | a :: as, b :: bs => a.toNat < b.toNat || (a.toNat == b.toNat && lexLt as bs)

/-- Lexicographic `≤` on `List Char`: Python `str <=` (used for `sorted`). -/
def lexLe (a b : List Char) : Bool :=
  !(lexLt b a)

/-! ## Dates (`datetime.date`) -/

/-- A `datetime.date` value: the scanner only ever builds valid dates, but the
structure itself also lets day `0` stand for "no day" when analysing the Jinja
formatter's dead branch. -/
structure PyDate where
  year : Nat
  month : Nat
  day : Nat
deriving DecidableEq, Repr

/-- Gregorian leap-year rule used by `datetime`. -/
def isLeapYear (y : Nat) : Bool :=
  y % 4 == 0 && (y % 100 != 0 || y % 400 == 0)

/-- Days in a month, as validated by the `datetime.date` constructor. -/
def daysInMonth (y m : Nat) : Nat :=
  if m == 2 then (if isLeapYear y then 29 else 28)
  else if m == 4 || m == 6 || m == 9 || m == 11 then 30
  else 31

/-- Would `datetime.date(y, m, d)` succeed? (`MINYEAR = 1`, `MAXYEAR = 9999`.) -/
def dateValid (y m d : Nat) : Bool :=
  1 ≤ y && y ≤ 9999 && 1 ≤ m && m ≤ 12 && 1 ≤ d && d ≤ daysInMonth y m

/-- `_to_date` from `app.py`: day defaults to 1 when the day group is absent;
an invalid calendar date yields `None` (the `except ValueError` branch). -/
def _to_date (y m : Nat) (d : Option Nat) : Option PyDate :=
  let day := d.getD 1
  if dateValid y m day then some ⟨y, m, day⟩ else none

/-! ## The four folder-name patterns

`_cn_patterns ++ _iso_patterns` from `app.py`, in priority order:

1. `^(?P<title>.+?)\s*(?P<y>\d{4})\s*年\s*(?P<m>\d{1,2})\s*月(?:\s*(?P<d>\d{1,2})\s*日)?$`
2. `^(?P<y>\d{4})\s*年\s*(?P<m>\d{1,2})\s*月(?:\s*(?P<d>\d{1,2})\s*日)?\s*(?P<title>.+?)$`
3. `^(?P<title>.+?)\s*(?P<y>\d{4})[SEP](?P<m>\d{1,2})(?:[SEP](?P<d>\d{1,2}))?$`
4. `^(?P<y>\d{4})[SEP](?P<m>\d{1,2})(?:[SEP](?P<d>\d{1,2}))?\s*(?P<title>.+?)$`

`[SEP]` abbreviates the separator class of dash, slash and dot (written out
here because the raw class would end this comment).

Each matcher mirrors the backtracking search order of Python `re`:
the lazy `.+?` tries title prefixes shortest first; `\d{1,2}` tries two digits
before one; an optional greedy group is tried before being skipped; `\s*`
before a character that is never whitespace needs no backtracking, while
`\s*(?P<title>.+?)$` does backtrack and is modelled exactly in `tailTitle`.
-/

/-- The captures of one successful pattern match: title capture and the
numeric values of the `y`/`m`/`d` groups (Python converts them with `int`). -/
structure RawMatch where
  title : List Char
  y : Nat
  m : Nat
  d : Option Nat
deriving DecidableEq, Repr

/-- `\d{4}`: exactly four digits at the head of the input. -/
def grabYear : List Char → Option (Nat × List Char)
  | a :: b :: c :: e :: rest =>
    if pyDigit a && pyDigit b && pyDigit c && pyDigit e then
      some (natOfDigits [a, b, c, e], rest)
    else none
  | _ => none

/-- `\d{1,2}` (greedy): the candidate splits in backtracking priority order,
two digits before one digit. -/
def grab2or1 : List Char → List (Nat × List Char)
  | a :: b :: rest =>
    if pyDigit a then
      if pyDigit b then [(natOfDigits [a, b], rest), (digitVal a, b :: rest)]
      else [(digitVal a, b :: rest)]
    else []
  | [a] => if pyDigit a then [(digitVal a, [])] else []
  | [] => []

/-- Helper for `\s*(?P<title>.+?)$`: given that the whitespace prefix of `s`
has length at least `k`, try consuming `k, k-1, …, 0` whitespace characters
(greedy `\s*` first) and let the lazy title take everything that remains;
the title must be non-empty and `.` never matches a newline. -/
def titleFrom (s : List Char) : Nat → Option (List Char)
  | 0 => if s.isEmpty || hasNewline s then none else some s
  | k + 1 =>
    let t := s.drop (k + 1)
    if t.isEmpty || hasNewline t then titleFrom s k else some t

/-- `\s*(?P<title>.+?)$` applied to `s` (`$` = end of input). -/
def tailTitle (s : List Char) : Option (List Char) :=
  titleFrom s (s.takeWhile pySpace).length

/-- `(?:\s*(?P<d>\d{1,2})\s*日)?$` — the optional day group of the CN
patterns when followed by the anchor (pattern 1). -/
def cnDayTail (s8 : List Char) (y m : Nat) : Option (Nat × Nat × Option Nat) :=
  let withDay := (grab2or1 (s8.dropWhile pySpace)).findSome? fun (dd : Nat × List Char) =>
    match dd.2.dropWhile pySpace with
    | '日' :: u3 => if u3.isEmpty then some (y, m, some dd.1) else none
    | _ => none
  withDay.orElse fun _ => if s8.isEmpty then some (y, m, none) else none

/-- `(?:\s*(?P<d>\d{1,2})\s*日)?\s*(?P<title>.+?)$` — the optional day group
of the CN patterns when followed by the lazy title (pattern 2). -/
def cnDayTitle (s8 : List Char) (y m : Nat) : Option RawMatch :=
  let withDay := (grab2or1 (s8.dropWhile pySpace)).findSome? fun (dd : Nat × List Char) =>
    match dd.2.dropWhile pySpace with
    | '日' :: u3 => (tailTitle u3).map fun t => ⟨t, y, m, some dd.1⟩
    | _ => none
  withDay.orElse fun _ => (tailTitle s8).map fun t => ⟨t, y, m, none⟩

/-- `(?P<m>\d{1,2})\s*月…` continuation of pattern 1, starting at the month
digits. -/
def cnMonthTail (s5 : List Char) (y : Nat) : Option (Nat × Nat × Option Nat) :=
  (grab2or1 s5).findSome? fun (mm : Nat × List Char) =>
    match mm.2.dropWhile pySpace with
    | '月' :: s8 => cnDayTail s8 y mm.1
    | _ => none

/-- `(?P<m>\d{1,2})\s*月…` continuation of pattern 2. -/
def cnMonthTitle (s5 : List Char) (y : Nat) : Option RawMatch :=
  (grab2or1 s5).findSome? fun (mm : Nat × List Char) =>
    match mm.2.dropWhile pySpace with
    | '月' :: s8 => cnDayTitle s8 y mm.1
    | _ => none

/-- `\s*(?P<y>\d{4})\s*年\s*(?P<m>\d{1,2})\s*月(?:…日)?$` — what pattern 1
requires after the lazy title. -/
def cn1Tail (s : List Char) : Option (Nat × Nat × Option Nat) :=
  match grabYear (s.dropWhile pySpace) with
  | some (y, s2) =>
    match s2.dropWhile pySpace with
    | '年' :: s4 => cnMonthTail (s4.dropWhile pySpace) y
    | _ => none
  | none => none

/-- The lazy-title loop `^(?P<title>.+?)…`: try title prefixes shortest
first; a title character can never be a newline, and once a newline is hit no
longer prefix can match either. -/
def lazyGo {α : Type} (tf : List Char → Option α) : List Char → List Char → Option (List Char × α)
  | _, [] => none
  | pre, c :: rest =>
    if c = '\n' then none
    else
      match tf rest with
      | some r => some (pre ++ [c], r)
      | none => lazyGo tf (pre ++ [c]) rest

/-- Pattern 1 (`title … y 年 m 月 [d 日]`) as a whole-string match. -/
def cn1Match (s : List Char) : Option RawMatch :=
  (lazyGo cn1Tail [] s).map fun p => ⟨p.1, p.2.1, p.2.2.1, p.2.2.2⟩

/-- Pattern 2 (`y 年 m 月 [d 日] … title`) as a whole-string match. -/
def cn2Match (s : List Char) : Option RawMatch :=
  match grabYear s with
  | some (y, s2) =>
    match s2.dropWhile pySpace with
    | '年' :: s4 => cnMonthTitle (s4.dropWhile pySpace) y
    | _ => none
  | none => none

/-- `[SEP]`: the numeric date separator class, one of dash, slash, dot. -/
def isoSep (c : Char) : Bool :=
  c == '-' || c == '/' || c == '.'

/-- `(?:[SEP](?P<d>\d{1,2}))?$` — the optional day group of pattern 3. -/
def isoDayTail (s4 : List Char) (y m : Nat) : Option (Nat × Nat × Option Nat) :=
  let withDay : Option (Nat × Nat × Option Nat) :=
    match s4 with
    | c :: s5 =>
      if isoSep c then
        (grab2or1 s5).findSome? fun (dd : Nat × List Char) =>
          if dd.2.isEmpty then some (y, m, some dd.1) else none
      else none
    | [] => none
  withDay.orElse fun _ => if s4.isEmpty then some (y, m, none) else none

/-- `(?:[SEP](?P<d>\d{1,2}))?\s*(?P<title>.+?)$` — the optional day group of
pattern 4. -/
def isoDayTitle (s4 : List Char) (y m : Nat) : Option RawMatch :=
  let withDay : Option RawMatch :=
    match s4 with
    | c :: s5 =>
      if isoSep c then
        (grab2or1 s5).findSome? fun (dd : Nat × List Char) =>
          (tailTitle dd.2).map fun t => ⟨t, y, m, some dd.1⟩
      else none
    | [] => none
  withDay.orElse fun _ => (tailTitle s4).map fun t => ⟨t, y, m, none⟩

/-- `(?P<m>\d{1,2})(?:[SEP]…)?$` continuation of pattern 3. -/
def isoMonthTail (s3 : List Char) (y : Nat) : Option (Nat × Nat × Option Nat) :=
  (grab2or1 s3).findSome? fun (mm : Nat × List Char) => isoDayTail mm.2 y mm.1

/-- `\s*(?P<y>\d{4})[SEP](?P<m>\d{1,2})(?:…)?$` — what pattern 3 requires
after the lazy title. -/
def iso1Tail (s : List Char) : Option (Nat × Nat × Option Nat) :=
  match grabYear (s.dropWhile pySpace) with
  | some (y, s2) =>
    match s2 with
    | c :: s3 => if isoSep c then isoMonthTail s3 y else none
    | [] => none
  | none => none

/-- Pattern 3 (`title … y-m[-d]`) as a whole-string match. -/
def iso1Match (s : List Char) : Option RawMatch :=
  (lazyGo iso1Tail [] s).map fun p => ⟨p.1, p.2.1, p.2.2.1, p.2.2.2⟩

/-- Pattern 4 (`y-m[-d] … title`) as a whole-string match. -/
def iso2Match (s : List Char) : Option RawMatch :=
  match grabYear s with
  | some (y, s2) =>
    match s2 with
    | c :: s3 =>
      if isoSep c then (grab2or1 s3).findSome? fun (mm : Nat × List Char) => isoDayTitle mm.2 y mm.1
      else none
    | [] => none
  | none => none

/-- `_cn_patterns + _iso_patterns` in the priority order of the `for` loop. -/
def patList : List (List Char → Option RawMatch) :=
  [cn1Match, cn2Match, iso1Match, iso2Match]

/-- The first pattern match found by the loop in `parse_title_date`. -/
def firstPatMatch (name : List Char) : Option RawMatch :=
  patList.findSome? fun p => p name

/-- `parse_title_date` from `app.py`.  On a match, the trimmed title capture
is returned; if it were empty, the code computes
`pat.sub("", name).strip("-_ ·，, ") or name`, and since a successful match is
anchored on both sides it spans the whole of `name`, so the substitution
yields `""`, the strip yields `""`, and the fallback is `name` itself. -/
def parse_title_date (folder_name : String) : String × Option PyDate :=
  let name := pyStripList folder_name.data
  match firstPatMatch name with
  | some r =>
    let t := pyStripList r.title
    (if t.isEmpty then ⟨name⟩ else ⟨t⟩, _to_date r.y r.m r.d)
  | none => (⟨name⟩, none)

/-! ## Data model (`Album`, `Category`) -/

/-- The `Album` dataclass. -/
structure Album where
  category : String
  folder : String
  title : String
  date : Option PyDate
  rel_dir : String
  images : List String
deriving DecidableEq, Repr

/-- `Album.cover_relfile`: `f"{self.rel_dir}/{self.images[0]}" if self.images else None`. -/
def Album.cover_relfile (a : Album) : Option String :=
  match a.images with
  | [] => none
  | i :: _ => some (a.rel_dir ++ "/" ++ i)

/-- The `Category` dataclass. -/
structure Category where
  name : String
  rel_dir : String
  albums : List Album
deriving DecidableEq, Repr

/-- `Category.total_albums`. -/
def Category.total_albums (c : Category) : Nat :=
  c.albums.length

/-- `Category.total_images`. -/
def Category.total_images (c : Category) : Nat :=
  (c.albums.map fun a => a.images.length).sum

/-- `Category.cover_relfile`: first album with a cover. -/
def Category.cover_relfile (c : Category) : Option String :=
  c.albums.findSome? Album.cover_relfile

/-! ## Filesystem model and the scanner -/

/-- One directory entry of the abstract filesystem tree handed to the scanner:
`iterdir()` yields files and subdirectories (entry order is irrelevant because
the scanner sorts everything it enumerates). -/
inductive FsEntry where
  | file (name : String)
  | dir (name : String) (entries : List FsEntry)

/-- The subdirectories among a directory's entries (`p.is_dir()`). -/
def dirsOf (es : List FsEntry) : List (String × List FsEntry) :=
  es.filterMap fun e =>
    match e with
    | .dir n cs => some (n, cs)
    | .file _ => none

/-- `ALLOWED_EXTS` from `app.py`. -/
def ALLOWED_EXTS : List (List Char) :=
  [".jpg".data, ".jpeg".data, ".png".data, ".webp".data, ".gif".data, ".bmp".data]

/-- `PurePath.suffix`: the `.`-extension of a file name; empty when the name
has no dot, starts with its only dot, or ends with a dot. -/
def pySuffix (name : List Char) : List Char :=
  let r := name.reverse
  let pre := r.takeWhile fun c => !(c == '.')
  if pre.length < r.length && 1 ≤ pre.length && pre.length + 1 < r.length then
    '.' :: pre.reverse
  else []

/-- ASCII `str.lower()`; Python's `lower` also folds non-ASCII letters, but a
non-ASCII extension is not in `ALLOWED_EXTS` either way, so membership in the
allow-list is unaffected. -/
def asciiLower (c : Char) : Char :=
  if 'A' ≤ c && c ≤ 'Z' then Char.ofNat (c.toNat + 32) else c

/-- Lower-cased extension of a file name. -/
def suffixLower (name : String) : List Char :=
  (pySuffix name.data).map asciiLower

/-- `allowed_image` from `app.py`: a regular file whose lower-cased extension
is in the allow-list (directories are never images). -/
def allowed_image (e : FsEntry) : Bool :=
  match e with
  | .file n => ALLOWED_EXTS.contains (suffixLower n)
  | .dir _ _ => false

/-- Name of a file entry. -/
def fileName (e : FsEntry) : Option String :=
  match e with
  | .file n => some n
  | .dir _ _ => none

/-- Python `sorted` on names (code-point order).  `List.insertionSort` is a
stable sort, and a stable sort w.r.t. a total preorder is unique, so this is
exactly CPython's stable sort. -/
def nameLe (a b : String) : Prop :=
  lexLe a.data b.data = true

instance : DecidableRel nameLe := fun a b => instDecidableEqBool (lexLe a.data b.data) true

def sortStrings (l : List String) : List String :=
  List.insertionSort nameLe l

/-- Python `sorted` on the `Path` objects of one parent directory, which
compares by name. -/
def dirNameLe (a b : String × List FsEntry) : Prop :=
  nameLe a.1 b.1

instance : DecidableRel dirNameLe := fun a b => instDecidableEqBool (lexLe a.1.data b.1.data) true

def sortDirs (l : List (String × List FsEntry)) : List (String × List FsEntry) :=
  List.insertionSort dirNameLe l

/-- `str(album_dir.relative_to(IMAGES_ROOT)).replace("\\", "/")` on POSIX:
the components joined by `/`. -/
def joinPath (comps : List String) : String :=
  String.intercalate "/" comps

/-- Date part of the album sort key: `a.date or dt.date(1, 1, 1)` (a date
object is always truthy, so this is the sentinel exactly when `date is None`). -/
def albumKeyDate (a : Album) : PyDate :=
  a.date.getD ⟨1, 1, 1⟩

/-- Boolean part of the album sort key, `a.date is not None`, as 0/1 (Python
compares `False < True` like `0 < 1`). -/
def albumHasDate (a : Album) : Nat :=
  if a.date.isSome then 1 else 0

/-- Strict comparison of `datetime.date` (lexicographic on year, month, day). -/
def dateLtB (x y : PyDate) : Bool :=
  x.year < y.year ||
    (x.year == y.year &&
      (x.month < y.month || (x.month == y.month && x.day < y.day)))

/-- Python `<` on the sort key tuple
`(a.date is not None, a.date or dt.date(1,1,1), a.title)`. -/
def albumKeyLtB (a b : Album) : Bool :=
  albumHasDate a < albumHasDate b ||
    (albumHasDate a == albumHasDate b &&
      (dateLtB (albumKeyDate a) (albumKeyDate b) ||
        (albumKeyDate a == albumKeyDate b && lexLt a.title.data b.title.data)))

/-- The order used by `albums.sort(key=…, reverse=True)`: `a` may precede `b`
iff the key of `a` is not smaller than the key of `b`.  Sorting a list stably
by this relation is exactly Python's stable descending sort. -/
def albumRevRel (a b : Album) : Prop :=
  albumKeyLtB a b = false

instance : DecidableRel albumRevRel := fun a b => instDecidableEqBool (albumKeyLtB a b) false

/-- The ascending name order of `categories.sort(key=lambda c: c.name)`. -/
def catNameLe (a b : Category) : Prop :=
  nameLe a.name b.name

instance : DecidableRel catNameLe := fun a b =>
  instDecidableEqBool (lexLe a.name.data b.name.data) true

/-- One album directory: keep the sorted allowed images, drop the album when
none remain, otherwise parse the folder name and build the `Album`. -/
def scanAlbumDir (cname aname : String) (entries : List FsEntry) : Option Album :=
  let imgs := sortStrings ((entries.filter allowed_image).filterMap fileName)
  if imgs.isEmpty then none
  else
    some { category := cname
           folder := aname
           title := (parse_title_date aname).1
           date := (parse_title_date aname).2
           rel_dir := joinPath [cname, aname]
           images := imgs }

/-- `_scan_once` from `app.py` over the abstract tree; `none` models a
non-existent `IMAGES_ROOT`. -/
def _scan_once (root : Option (List FsEntry)) : List Category :=
  match root with
  | none => []
  | some es =>
    let cats := (sortDirs (dirsOf es)).filterMap fun cd =>
      let albums := List.insertionSort albumRevRel
        ((sortDirs (dirsOf cd.2)).filterMap fun ad => scanAlbumDir cd.1 ad.1 ad.2)
      if albums.isEmpty then none
      else some { name := cd.1, rel_dir := cd.1, albums := albums }
    List.insertionSort catNameLe cats

/-! ## The TTL cache -/

/-- `CACHE_TTL_SECONDS = 5`; time is modelled by rationals (Python uses
floating-point seconds, compared with `>`). -/
def CACHE_TTL_SECONDS : ℚ := 5

/-- The module-level dict `_cache = {"at": 0.0, "data": []}`; `atTime` is the
`"at"` entry. -/
structure CacheState where
  atTime : ℚ
  data : List Category
deriving DecidableEq

/-- The initial value of `_cache`. -/
def initialCache : CacheState :=
  ⟨0, []⟩

/-- `get_catalog` from `app.py` in state-passing form: given the result a
fresh `_scan_once()` would produce, the current `time.time()` and the cache,
return the catalog handed to the caller, the new cache state, and whether a
rescan was performed (`True` exactly when the body of the `if` ran). -/
def get_catalog (scan : List Category) (now : ℚ) (c : CacheState) :
    List Category × CacheState × Bool :=
  if CACHE_TTL_SECONDS < now - c.atTime ∨ c.data = [] then
    (scan, ⟨now, scan⟩, true)
  else
    (c.data, c, false)

/-! ## The Jinja date filter -/

/-- `jinja_cn_date` from `app.py`.  `not d` is true only for `None` (date
objects are truthy); `if d.day` renders the day part unless `d.day` is the
falsy `0`, which `datetime.date` itself can never produce. -/
def jinja_cn_date (d : Option PyDate) : String :=
  match d with
  | none => "未标注日期"
  | some dd =>
    toString dd.year ++ " 年 " ++ toString dd.month ++ " 月" ++
      (if dd.day ≠ 0 then " " ++ toString dd.day ++ " 日" else "")

/-! ## The media resolver

`media()` from `app.py` over an abstract filesystem given by the set of
existing file paths and directory paths (absolute paths as component lists;
no symlinks, so `Path.resolve()` is the lexical normalisation of `..`).
`send_from_directory` is Flask; it re-joins the path safely and serves it
only if `os.path.isfile` holds, else raises `NotFound`.
-/

/-- The filesystem visible to the media endpoint. -/
structure MediaFs where
  files : List (List String)
  dirs : List (List String)

/-- `str.split('/')` on character lists (structural, so that concrete media
requests evaluate inside the kernel). -/
def splitSlashGo (cur : List Char) : List Char → List String
  | [] => [⟨cur⟩]
  | c :: rest => if c = '/' then ⟨cur⟩ :: splitSlashGo [] rest else splitSlashGo (cur ++ [c]) rest

/-- `PurePath` parsing of the URL remainder: split on `/`, drop empty
components and `.` (pathlib does both), keep `..`. -/
def pathComponents (s : String) : List String :=
  (splitSlashGo [] s.data).filter fun x => !(x == "") && !(x == ".")

/-- `(IMAGES_ROOT / filename).resolve()` without symlinks: append the request
components to the root path, where `..` removes the last component and the
filesystem root absorbs `..`. -/
def resolveAbs (base : List String) (comps : List String) : List String :=
  comps.foldl (fun st c => if c == ".." then st.dropLast else st ++ [c]) base

/-- Does `p.relative_to(root)` succeed, i.e. is `root` a leading run of the
resolved path's components? -/
def underRoot (root p : List String) : Bool :=
  p.take root.length == root

/-- Final component of the resolved path (whose `suffix` is checked). -/
def lastComponent (p : List String) : String :=
  p.getLast?.getD ""

/-- `p.exists()`. -/
def existsPath (fs : MediaFs) (p : List String) : Bool :=
  fs.files.contains p || fs.dirs.contains p

/-- `os.path.isfile(p)`. -/
def isFilePath (fs : MediaFs) (p : List String) : Bool :=
  fs.files.contains p

/-- The `media` view: resolve, reject paths that escape the root
(`p.relative_to(IMAGES_ROOT)` raising → 404), reject disallowed extensions
and missing paths, then let `send_from_directory` serve the path only if it
is a regular file. -/
def media (fs : MediaFs) (root : List String) (filename : String) :
    Option (List String) :=
  let p := resolveAbs root (pathComponents filename)
  if !(underRoot root p) then none
  else if !(ALLOWED_EXTS.contains (suffixLower (lastComponent p))) then none
  else if !(existsPath fs p) then none
  else if isFilePath fs p then some p else none

/-! ## Order lemmas for the sort relations -/

theorem charEq_of_toNat_eq (x y : Char) (h : x.toNat = y.toNat) : x = y := by
  apply Char.eq_of_val_eq
  apply UInt32.eq_of_toBitVec_eq
  apply BitVec.eq_of_toNat_eq
  simpa [Char.toNat, UInt32.toNat] using h

theorem lexLt_irrefl (a : List Char) : lexLt a a = false := by
  induction a with
  | nil => rfl
  | cons x xs ih => simp [lexLt, ih]

theorem lexLt_trans :
    ∀ (a b c : List Char), lexLt a b = true → lexLt b c = true → lexLt a c = true := by
  intro a
  induction a with
  | nil =>
    intro b c hab hbc
    cases b with
    | nil => exact absurd hab (by simp [lexLt])
    | cons y ys => cases c with
      | nil => exact absurd hbc (by simp [lexLt])
      | cons z zs => simp [lexLt]
  | cons x xs ih =>
    intro b c hab hbc
    cases b with
    | nil => exact absurd hab (by simp [lexLt])
    | cons y ys =>
      cases c with
      | nil => exact absurd hbc (by simp [lexLt])
      | cons z zs =>
        simp only [lexLt, Bool.or_eq_true, Bool.and_eq_true, beq_iff_eq,
          decide_eq_true_eq] at hab hbc ⊢
        rcases hab with h1 | ⟨h1, h2⟩ <;> rcases hbc with h3 | ⟨h3, h4⟩
        · exact Or.inl (h1.trans h3)
        · exact Or.inl (by omega)
        · exact Or.inl (by omega)
        · exact Or.inr ⟨by omega, ih ys zs h2 h4⟩

theorem lexLt_tri (a : List Char) :
    ∀ b, lexLt a b = true ∨ lexLt b a = true ∨ a = b := by
  induction a with
  | nil =>
    intro b
    cases b with
    | nil => exact Or.inr (Or.inr rfl)
    | cons y ys => exact Or.inl (by simp [lexLt])
  | cons x xs ih =>
    intro b
    cases b with
    | nil => exact Or.inr (Or.inl (by simp [lexLt]))
    | cons y ys =>
      rcases Nat.lt_trichotomy x.toNat y.toNat with h | h | h
      · exact Or.inl (by simp [lexLt, h])
      · rcases ih ys with h2 | h2 | h2
        · exact Or.inl (by simp [lexLt, h, h2])
        · exact Or.inr (Or.inl (by simp [lexLt, h, h2]))
        · refine Or.inr (Or.inr ?_)
          have hxy : x = y := charEq_of_toNat_eq x y h
          rw [hxy, h2]
      · exact Or.inr (Or.inl (by simp [lexLt, h]))

theorem lexLt_asymm (a b : List Char) (h1 : lexLt a b = true) (h2 : lexLt b a = true) :
    False := by
  have h := lexLt_trans a b a h1 h2
  rw [lexLt_irrefl] at h
  exact Bool.false_ne_true h

theorem lexLe_total (a b : List Char) : lexLe a b = true ∨ lexLe b a = true := by
  simp only [lexLe, Bool.not_eq_true']
  cases hba : lexLt b a with
  | false => exact Or.inl rfl
  | true =>
    cases hab : lexLt a b with
    | false => exact Or.inr rfl
    | true => exact (lexLt_asymm a b hab hba).elim

theorem lexLe_trans (a b c : List Char) (h1 : lexLe a b = true) (h2 : lexLe b c = true) :
    lexLe a c = true := by
  simp only [lexLe, Bool.not_eq_true'] at h1 h2 ⊢
  by_contra hca
  replace hca : lexLt c a = true := by
    cases h : lexLt c a with
    | false => exact absurd h hca
    | true => rfl
  rcases lexLt_tri c b with h3 | h3 | h3
  · exact Bool.false_ne_true (h2 ▸ h3)
  · exact Bool.false_ne_true (h1 ▸ lexLt_trans b c a h3 hca)
  · exact Bool.false_ne_true (h1 ▸ h3 ▸ hca)

theorem dateLtB_irrefl (x : PyDate) : dateLtB x x = false := by
  simp [dateLtB]

theorem dateLtB_trans (x y z : PyDate) (h1 : dateLtB x y = true) (h2 : dateLtB y z = true) :
    dateLtB x z = true := by
  obtain ⟨a1, b1, c1⟩ := x
  obtain ⟨a2, b2, c2⟩ := y
  obtain ⟨a3, b3, c3⟩ := z
  simp only [dateLtB, Bool.or_eq_true, Bool.and_eq_true, beq_iff_eq,
    decide_eq_true_eq] at h1 h2 ⊢
  omega

theorem dateLtB_tri (x y : PyDate) :
    dateLtB x y = true ∨ dateLtB y x = true ∨ x = y := by
  obtain ⟨a1, b1, c1⟩ := x
  obtain ⟨a2, b2, c2⟩ := y
  simp only [dateLtB, Bool.or_eq_true, Bool.and_eq_true, beq_iff_eq,
    decide_eq_true_eq, PyDate.mk.injEq]
  omega

theorem albumKeyLtB_irrefl (a : Album) : albumKeyLtB a a = false := by
  simp [albumKeyLtB, dateLtB_irrefl, lexLt_irrefl]

theorem albumKeyLtB_trans (a b c : Album)
    (h1 : albumKeyLtB a b = true) (h2 : albumKeyLtB b c = true) :
    albumKeyLtB a c = true := by
  simp only [albumKeyLtB, Bool.or_eq_true, Bool.and_eq_true, beq_iff_eq,
    decide_eq_true_eq] at h1 h2 ⊢
  rcases h1 with h1 | ⟨he1, h1⟩
  · rcases h2 with h2 | ⟨he2, h2⟩
    · exact Or.inl (by omega)
    · exact Or.inl (by omega)
  · rcases h2 with h2 | ⟨he2, h2⟩
    · exact Or.inl (by omega)
    · refine Or.inr ⟨by omega, ?_⟩
      rcases h1 with h1 | ⟨hd1, h1⟩
      · rcases h2 with h2 | ⟨hd2, h2⟩
        · exact Or.inl (dateLtB_trans _ _ _ h1 h2)
        · exact Or.inl (hd2 ▸ h1)
      · rcases h2 with h2 | ⟨hd2, h2⟩
        · exact Or.inl (hd1 ▸ h2)
        · exact Or.inr ⟨hd1.trans hd2, lexLt_trans _ _ _ h1 h2⟩

theorem albumKeyLtB_tri (a b : Album) :
    albumKeyLtB a b = true ∨ albumKeyLtB b a = true ∨
      (albumHasDate a = albumHasDate b ∧ albumKeyDate a = albumKeyDate b ∧
        a.title = b.title) := by
  simp only [albumKeyLtB, Bool.or_eq_true, Bool.and_eq_true, beq_iff_eq,
    decide_eq_true_eq]
  rcases Nat.lt_trichotomy (albumHasDate a) (albumHasDate b) with h | h | h
  · exact Or.inl (Or.inl h)
  · rcases dateLtB_tri (albumKeyDate a) (albumKeyDate b) with hd | hd | hd
    · exact Or.inl (Or.inr ⟨h, Or.inl hd⟩)
    · exact Or.inr (Or.inl (Or.inr ⟨h.symm, Or.inl hd⟩))
    · rcases lexLt_tri a.title.data b.title.data with ht | ht | ht
      · exact Or.inl (Or.inr ⟨h, Or.inr ⟨hd, ht⟩⟩)
      · exact Or.inr (Or.inl (Or.inr ⟨h.symm, Or.inr ⟨hd.symm, ht⟩⟩))
      · refine Or.inr (Or.inr ⟨h, hd, ?_⟩)
        have : a.title.data = b.title.data := ht
        exact congrArg String.mk this
  · exact Or.inr (Or.inl (Or.inl h))

theorem albumKeyLtB_congr_left (a b c : Album)
    (h : albumHasDate a = albumHasDate b ∧ albumKeyDate a = albumKeyDate b ∧
      a.title = b.title) :
    albumKeyLtB a c = albumKeyLtB b c := by
  obtain ⟨h1, h2, h3⟩ := h
  simp only [albumKeyLtB, h1, h2, h3]

instance : IsTotal Album albumRevRel where
  total a b := by
    unfold albumRevRel
    cases h1 : albumKeyLtB a b with
    | false => exact Or.inl rfl
    | true =>
      cases h2 : albumKeyLtB b a with
      | false => exact Or.inr rfl
      | true =>
        have h := albumKeyLtB_trans a b a h1 h2
        rw [albumKeyLtB_irrefl] at h
        exact absurd h Bool.false_ne_true

instance : IsTrans Album albumRevRel where
  trans a b c h1 h2 := by
    unfold albumRevRel at h1 h2 ⊢
    by_contra hac
    replace hac : albumKeyLtB a c = true := by
      cases h : albumKeyLtB a c with
      | false => exact absurd h hac
      | true => rfl
    rcases albumKeyLtB_tri a b with h3 | h3 | h3
    · exact Bool.false_ne_true (h1 ▸ h3)
    · exact Bool.false_ne_true (h2 ▸ albumKeyLtB_trans b a c h3 hac)
    · exact Bool.false_ne_true (h2 ▸ (albumKeyLtB_congr_left a b c h3).symm.trans hac)

instance : IsTotal String nameLe where
  total a b := lexLe_total a.data b.data

instance : IsTrans String nameLe where
  trans a b c h1 h2 := lexLe_trans a.data b.data c.data h1 h2

/-! ## Claim C4: safety of the media resolver -/

/-- C4: the media endpoint returns a file only when the resolved absolute
path lies within the configured images root, its extension is in the
allow-list (case-insensitively), and it exists as a regular file; in
particular no path outside the root is ever returned. -/
theorem media_only_safe_paths (fs : MediaFs) (root : List String) (filename : String)
    (p : List String) (h : media fs root filename = some p) :
    underRoot root p = true ∧
    ALLOWED_EXTS.contains (suffixLower (lastComponent p)) = true ∧
    p ∈ fs.files := by
  simp only [media] at h
  split_ifs at h with h1 h2 h3 h4
  obtain rfl := Option.some.inj h
  refine ⟨by simpa using h1, by simpa using h2, ?_⟩
  simpa [isFilePath] using h4

/-- A small concrete filesystem used by the media witness. -/
def mediaFsEx : MediaFs :=
  ⟨[["srv", "images", "c", "a", "x.jpg"], ["srv", "secret.jpg"]],
    [["srv"], ["srv", "images"], ["srv", "images", "c"], ["srv", "images", "c", "a"]]⟩

/-- Witness for C4: a request inside the root for an existing `.jpg` file is
served and satisfies all three conditions; a `../` request that resolves
outside the root is refused. -/
theorem media_only_safe_paths_witness :
    media mediaFsEx ["srv", "images"] "c/a/x.jpg" = some ["srv", "images", "c", "a", "x.jpg"] ∧
    (underRoot ["srv", "images"] ["srv", "images", "c", "a", "x.jpg"] = true ∧
      ALLOWED_EXTS.contains (suffixLower (lastComponent ["srv", "images", "c", "a", "x.jpg"])) = true ∧
      ["srv", "images", "c", "a", "x.jpg"] ∈ mediaFsEx.files) ∧
    media mediaFsEx ["srv", "images"] "../secret.jpg" = none := by
  refine ⟨by decide, ?_, by decide⟩
  exact media_only_safe_paths mediaFsEx ["srv", "images"] "c/a/x.jpg"
    ["srv", "images", "c", "a", "x.jpg"] (by decide)
/-! ## Claim C8: the date-formatting helper -/

/-- C8: `jinja_cn_date` renders the fixed marker for an absent date; for a
present date it renders year and month in the long CN form, appending the day
part exactly when the day field is set (non-zero; a real `datetime.date`
always has `day ≥ 1`, so the day is rendered for every date the scanner can
produce). -/
theorem jinja_cn_date_spec :
    jinja_cn_date none = "未标注日期" ∧
    (∀ y m d : Nat, d ≠ 0 →
      jinja_cn_date (some ⟨y, m, d⟩) =
        toString y ++ " 年 " ++ toString m ++ " 月 " ++ toString d ++ " 日") ∧
    (∀ y m : Nat,
      jinja_cn_date (some ⟨y, m, 0⟩) = toString y ++ " 年 " ++ toString m ++ " 月") := by
  refine ⟨rfl, ?_, ?_⟩
  · intro y m d hd
    have hmerge : ∀ X : String, " 月" ++ (" " ++ X) = " 月 " ++ X := by
      intro X
      rw [← String.append_assoc]
      rfl
    simp only [jinja_cn_date, hd, ne_eq, not_false_eq_true, if_true, ite_true]
    simp only [String.append_assoc]
    rw [hmerge]
  · intro y m
    simp [jinja_cn_date]

/-- Witness for C8: the hypothesis `d ≠ 0` discharged at the date 2025-08-24. -/
theorem jinja_cn_date_spec_witness :
    jinja_cn_date (some ⟨2025, 8, 24⟩) = "2025 年 8 月 24 日" := by
  have h := jinja_cn_date_spec.2.1 2025 8 24 (by decide)
  rw [h]
  rfl

/-! ## Claim C9: missing root yields an empty catalog -/

/-- C9: when the configured root does not exist, `_scan_once` returns the
empty catalog rather than failing, and every catalog query then observes an
empty catalog: the cache starts empty, and any `get_catalog` call made while
the cache is empty and the scanner sees no root returns `[]` and leaves the
cached data empty. -/
theorem scan_missing_root_empty :
    _scan_once none = [] ∧
    initialCache.data = [] ∧
    ∀ (now : ℚ) (c : CacheState), c.data = [] →
      (get_catalog (_scan_once none) now c).1 = [] ∧
      (get_catalog (_scan_once none) now c).2.1.data = [] := by
  refine ⟨rfl, rfl, ?_⟩
  intro now c hc
  unfold get_catalog
  rw [if_pos (Or.inr hc)]
  exact ⟨rfl, rfl⟩

/-- Witness for C9: the empty-cache hypothesis discharged at the initial
cache state and time 7. -/
theorem scan_missing_root_empty_witness :
    (get_catalog (_scan_once none) 7 initialCache).1 = [] ∧
    (get_catalog (_scan_once none) 7 initialCache).2.1.data = [] :=
  scan_missing_root_empty.2.2 7 initialCache rfl

/-! ## Claim C3: cache behaviour within one TTL window -/

/-- Arithmetic facts about the TTL, factored out because rational-literal
comparisons do not reduce by `decide`. -/
theorem ttl_not_lt_zero_sub_zero : ¬(CACHE_TTL_SECONDS < (0 : ℚ) - 0) := by
  norm_num [CACHE_TTL_SECONDS]

theorem ttl_not_lt_one_sub_zero : ¬(CACHE_TTL_SECONDS < (1 : ℚ) - 0) := by
  norm_num [CACHE_TTL_SECONDS]

theorem ttl_three_sub_zero_le : (3 : ℚ) - 0 ≤ CACHE_TTL_SECONDS := by
  norm_num [CACHE_TTL_SECONDS]

/-- Counterexample to C3 as stated: over an unchanged tree whose scan result
is empty (for instance a missing root), the second `get_catalog` call one
second after the first does perform a re-scan (the `not _cache["data"]`
disjunct fires) and overwrites the stored timestamp, because an empty cached
catalog is treated as "never scanned". -/
theorem get_catalog_c3_counterexample :
    (get_catalog [] 1 (get_catalog [] 0 initialCache).2.1).2.2 = true ∧
    (get_catalog [] 1 (get_catalog [] 0 initialCache).2.1).2.1.atTime = 1 ∧
    (get_catalog [] 0 initialCache).2.1.atTime = 0 := by
  have hd : initialCache.data = [] := rfl
  have h1 : get_catalog [] 0 initialCache = ([], ⟨0, []⟩, true) := by
    unfold get_catalog
    rw [if_pos (Or.inr hd)]
  have hd2 : (⟨0, []⟩ : CacheState).data = [] := rfl
  have h2 : get_catalog [] 1 (⟨0, []⟩ : CacheState) = ([], ⟨1, []⟩, true) := by
    unfold get_catalog
    rw [if_pos (Or.inr hd2)]
  rw [h1]
  exact ⟨by rw [h2], by rw [h2], rfl⟩

/-- C3 (amended): if the catalog returned by the first call is non-empty and
the second call happens within the 5-second TTL window of the stored scan
timestamp, then the second call performs no re-scan and returns the stored
catalog with the cache state — data and timestamp — unchanged. -/
theorem get_catalog_cached_within_ttl (scan : List Category) (t1 t2 : ℚ)
    (c0 : CacheState)
    (hne : (get_catalog scan t1 c0).1 ≠ [])
    (httl : t2 - (get_catalog scan t1 c0).2.1.atTime ≤ CACHE_TTL_SECONDS) :
    get_catalog scan t2 ((get_catalog scan t1 c0).2.1) =
      ((get_catalog scan t1 c0).1, (get_catalog scan t1 c0).2.1, false) := by
  unfold get_catalog at hne httl ⊢
  by_cases h : CACHE_TTL_SECONDS < t1 - c0.atTime ∨ c0.data = []
  · rw [if_pos h] at hne httl ⊢
    simp only at hne httl ⊢
    rw [if_neg]
    push_neg
    exact ⟨by linarith, hne⟩
  · rw [if_neg h] at hne httl ⊢
    simp only at hne httl ⊢
    rw [if_neg]
    push_neg
    exact ⟨by linarith, hne⟩

/-- A concrete non-empty catalog for the cache witness. -/
def sampleCatalog : List Category :=
  [{ name := "c", rel_dir := "c",
     albums := [{ category := "c", folder := "a", title := "a", date := none,
                  rel_dir := "c/a", images := ["x.jpg"] }] }]

/-- Witness for C3 (amended): a scan at time 0 followed by a query at time 3
hits the cache. -/
theorem get_catalog_cached_within_ttl_witness :
    get_catalog sampleCatalog 3 ((get_catalog sampleCatalog 0 initialCache).2.1) =
      ((get_catalog sampleCatalog 0 initialCache).1,
        (get_catalog sampleCatalog 0 initialCache).2.1, false) := by
  have hd : initialCache.data = [] := rfl
  have hfirst : get_catalog sampleCatalog 0 initialCache =
      (sampleCatalog, ⟨0, sampleCatalog⟩, true) := by
    unfold get_catalog
    rw [if_pos (Or.inr hd)]
  refine get_catalog_cached_within_ttl sampleCatalog 0 3 initialCache ?_ ?_
  · rw [hfirst]
    simp [sampleCatalog]
  · rw [hfirst]
    exact ttl_three_sub_zero_le

/-! ## Structure of scan results (shared by C5, C6, C10) -/

/-- What a successfully scanned album directory yields. -/
theorem scanAlbumDir_eq_some {cname aname : String} {entries : List FsEntry} {a : Album}
    (h : scanAlbumDir cname aname entries = some a) :
    a.category = cname ∧ a.folder = aname ∧
    a.title = (parse_title_date aname).1 ∧
    a.date = (parse_title_date aname).2 ∧
    a.rel_dir = joinPath [cname, aname] ∧
    a.images = sortStrings ((entries.filter allowed_image).filterMap fileName) ∧
    a.images ≠ [] ∧ List.Sorted nameLe a.images := by
  simp only [scanAlbumDir] at h
  split_ifs at h with hempty
  obtain rfl := Option.some.inj h
  refine ⟨rfl, rfl, rfl, rfl, rfl, rfl, ?_, ?_⟩
  · simpa [List.isEmpty_iff] using hempty
  · exact List.sorted_insertionSort nameLe _

/-- Every category in a scan result has `rel_dir = name`, a non-empty album
list sorted by the descending composite key, and each of its albums comes
from one album directory via `scanAlbumDir`. -/
theorem scan_mem_structure {root : Option (List FsEntry)} {c : Category}
    (hc : c ∈ _scan_once root) :
    c.rel_dir = c.name ∧
    c.albums ≠ [] ∧
    List.Sorted albumRevRel c.albums ∧
    ∀ a ∈ c.albums, ∃ aname entries, scanAlbumDir c.name aname entries = some a := by
  cases root with
  | none => simp [_scan_once] at hc
  | some es =>
    simp only [_scan_once, List.mem_insertionSort] at hc
    obtain ⟨cd, hcd, hsome⟩ := List.mem_filterMap.mp hc
    split_ifs at hsome with hempty
    obtain rfl := Option.some.inj hsome
    refine ⟨rfl, by simpa [List.isEmpty_iff] using hempty,
      List.sorted_insertionSort albumRevRel _, ?_⟩
    intro a ha
    simp only [List.mem_insertionSort] at ha
    obtain ⟨ad, had, hsome2⟩ := List.mem_filterMap.mp ha
    exact ⟨ad.1, ad.2, hsome2⟩

/-- The flag `a.date is not None` never increases along a sorted album list. -/
theorem albumRevRel_hasDate {a b : Album} (h : albumRevRel a b) :
    albumHasDate b ≤ albumHasDate a := by
  unfold albumRevRel albumKeyLtB at h
  simp only [Bool.or_eq_false_iff, Bool.and_eq_false_iff, decide_eq_false_iff_not] at h
  exact Nat.not_lt.mp h.1

/-! ## Claims C5, C6, C10 and their shared example tree -/

/-- A concrete tree with two dated albums and one undated album. -/
def exTree : List FsEntry :=
  [.dir "trips"
    [.dir "A 2025-08-01" [.file "a.jpg"],
     .dir "B 2025-08-24" [.file "b.jpg"],
     .dir "Z" [.file "z.webp"]]]

/-- The album produced from `B 2025-08-24`. -/
def exAlbumB : Album :=
  { category := "trips", folder := "B 2025-08-24", title := "B",
    date := some ⟨2025, 8, 24⟩, rel_dir := "trips/B 2025-08-24", images := ["b.jpg"] }

/-- The album produced from `A 2025-08-01`. -/
def exAlbumA : Album :=
  { category := "trips", folder := "A 2025-08-01", title := "A",
    date := some ⟨2025, 8, 1⟩, rel_dir := "trips/A 2025-08-01", images := ["a.jpg"] }

/-- The album produced from `Z` (no date pattern matches). -/
def exAlbumZ : Album :=
  { category := "trips", folder := "Z", title := "Z",
    date := none, rel_dir := "trips/Z", images := ["z.webp"] }

/-- The category produced from `exTree`. -/
def exCategory : Category :=
  { name := "trips", rel_dir := "trips", albums := [exAlbumB, exAlbumA, exAlbumZ] }

/-- C5: within every scanned category the albums are sorted by the composite
key `(hasDate, date-or-sentinel, title)` in descending order (each album's
key is ≥ the key of every later album, so dated albums precede undated ones,
later dates come first and ties break by descending title); on the example
tree the three albums come out as 2025-08-24, then 2025-08-01, then the
undated `Z`. -/
theorem scan_albums_sorted_desc (root : Option (List FsEntry)) :
    (∀ c ∈ _scan_once root,
      List.Sorted albumRevRel c.albums ∧
      c.albums.Pairwise fun a b => albumHasDate b ≤ albumHasDate a) ∧
    (_scan_once (some exTree)).map (fun c => c.albums.map fun a => (a.title, a.date)) =
      [[("B", some ⟨2025, 8, 24⟩), ("A", some ⟨2025, 8, 1⟩), ("Z", none)]] := by
  constructor
  · intro c hc
    obtain ⟨-, -, hsort, -⟩ := scan_mem_structure hc
    exact ⟨hsort, hsort.imp fun h => albumRevRel_hasDate h⟩
  · decide

/-- Witness for C5: the sortedness statement discharged on the category
scanned from the example tree. -/
theorem scan_albums_sorted_desc_witness :
    List.Sorted albumRevRel exCategory.albums ∧
    exCategory.albums.Pairwise fun a b => albumHasDate b ≤ albumHasDate a :=
  (scan_albums_sorted_desc (some exTree)).1 exCategory (by decide)

/-- C6: every album of a scan result has a non-empty lexicographically
sorted image list, every category has a non-empty album list, and an album
directory containing only a `.txt` file produces no album — if it was the
category's only album candidate, the category disappears as well. -/
theorem scan_invariants (root : Option (List FsEntry)) :
    (∀ c ∈ _scan_once root, c.albums ≠ [] ∧
      ∀ a ∈ c.albums, a.images ≠ [] ∧ List.Sorted nameLe a.images) ∧
    _scan_once (some [.dir "c" [.dir "a" [.file "notes.txt"]]]) = [] := by
  constructor
  · intro c hc
    obtain ⟨-, hne, -, hmem⟩ := scan_mem_structure hc
    refine ⟨hne, ?_⟩
    intro a ha
    obtain ⟨an, ents, hs⟩ := hmem a ha
    obtain ⟨-, -, -, -, -, -, hne2, hsort⟩ := scanAlbumDir_eq_some hs
    exact ⟨hne2, hsort⟩
  · decide

/-- Witness for C6: the invariants discharged on the example category and
its first album. -/
theorem scan_invariants_witness :
    exCategory.albums ≠ [] ∧ exAlbumB.images ≠ [] ∧ List.Sorted nameLe exAlbumB.images := by
  have h := (scan_invariants (some exTree)).1 exCategory (by decide)
  exact ⟨h.1, (h.2 exAlbumB (by decide)).1, (h.2 exAlbumB (by decide)).2⟩

/-- C10: an album's relative path is its category name joined to its folder
name by a single `/`, a category's relative path is its name, and an album's
cover is its relative path joined to its first image. -/
theorem scan_relative_paths (root : Option (List FsEntry)) :
    ∀ c ∈ _scan_once root, c.rel_dir = c.name ∧
      ∀ a ∈ c.albums,
        a.rel_dir = a.category ++ "/" ++ a.folder ∧
        a.category = c.name ∧
        ∃ img rest, a.images = img :: rest ∧
          a.cover_relfile = some (a.rel_dir ++ "/" ++ img) := by
  intro c hc
  obtain ⟨hrel, -, -, hmem⟩ := scan_mem_structure hc
  refine ⟨hrel, ?_⟩
  intro a ha
  obtain ⟨an, ents, hs⟩ := hmem a ha
  obtain ⟨hcat, hfold, -, -, hrd, -, hne, -⟩ := scanAlbumDir_eq_some hs
  obtain ⟨img, rest, himg⟩ := List.exists_cons_of_ne_nil hne
  refine ⟨?_, hcat, img, rest, himg, ?_⟩
  · rw [hrd, hcat, hfold]
    rfl
  · simp [Album.cover_relfile, himg]

/-- Witness for C10: the path identities discharged on the example category
and its first album. -/
theorem scan_relative_paths_witness :
    exCategory.rel_dir = exCategory.name ∧
    exAlbumB.rel_dir = exAlbumB.category ++ "/" ++ exAlbumB.folder ∧
    exAlbumB.cover_relfile = some (exAlbumB.rel_dir ++ "/" ++ "b.jpg") := by
  have h := scan_relative_paths (some exTree) exCategory (by decide)
  have hb := h.2 exAlbumB (by decide)
  obtain ⟨img, rest, himg, hcov⟩ := hb.2.2
  have : img = "b.jpg" := by
    have : exAlbumB.images = ["b.jpg"] := rfl
    rw [this] at himg
    exact (List.cons.injEq _ _ _ _ ▸ himg).1.symm
  exact ⟨h.1, hb.1, this ▸ hcov⟩

/-! ## Claim C2: the first textual match wins, valid date or not -/

/-- `findSome?` returns the value of the first element that produces one. -/
theorem findSome_eq_of_first {α β : Type} (f : α → Option β) :
    ∀ (l : List α) (k : Nat) (x : α) (r : β),
      l[k]? = some x → f x = some r →
      (∀ j, j < k → ∀ y, l[j]? = some y → f y = none) →
      l.findSome? f = some r := by
  intro l
  induction l with
  | nil => intro k x r hget; simp at hget
  | cons a as ih =>
    intro k x r hget hf hbefore
    cases k with
    | zero =>
      simp only [List.getElem?_cons_zero, Option.some.injEq] at hget
      subst hget
      simp [List.findSome?_cons, hf]
    | succ k =>
      have ha : f a = none := hbefore 0 (Nat.succ_pos k) a (by simp)
      simp only [List.findSome?_cons, ha]
      exact ih k x r (by simpa using hget) hf
        (fun j hj y hy => hbefore (j + 1) (by omega) y (by simpa using hy))

/-- A produced `findSome?` value comes from some element of the list. -/
theorem exists_of_findSome_eq_some {α β : Type} {f : α → Option β} {b : β} :
    ∀ {l : List α}, l.findSome? f = some b → ∃ a ∈ l, f a = some b := by
  intro l
  induction l with
  | nil => intro h; simp [List.findSome?] at h
  | cons x xs ih =>
    intro h
    cases hfx : f x with
    | some v =>
      simp only [List.findSome?_cons, hfx] at h
      exact ⟨x, List.mem_cons_self x xs, by rw [hfx, h]⟩
    | none =>
      simp only [List.findSome?_cons, hfx] at h
      obtain ⟨a, ha, hfa⟩ := ih h
      exact ⟨a, List.mem_cons_of_mem x ha, hfa⟩

/-- C2: if the `k`-th pattern of the priority list matches textually while no
earlier pattern matches, then `parse_title_date` commits to that match — the
title is the one extracted from it — and when the captured components do not
form a valid calendar date the returned date is simply absent; no later
pattern is ever consulted. -/
theorem parse_commits_to_first_textual_match (s : String) (k : Nat)
    (pm : List Char → Option RawMatch) (r : RawMatch)
    (hk : patList[k]? = some pm)
    (hmatch : pm (pyStripList s.data) = some r)
    (hearlier : ∀ j, j < k → ∀ pj, patList[j]? = some pj →
      pj (pyStripList s.data) = none)
    (hinvalid : dateValid r.y r.m (r.d.getD 1) = false) :
    parse_title_date s =
      ((if (pyStripList r.title).isEmpty then (⟨pyStripList s.data⟩ : String)
        else ⟨pyStripList r.title⟩), none) := by
  have hfm : firstPatMatch (pyStripList s.data) = some r :=
    findSome_eq_of_first _ patList k pm r hk hmatch hearlier
  simp only [parse_title_date, firstPatMatch] at *
  rw [hfm]
  simp [_to_date, hinvalid]

/-- Witness for C2: on `2025年13月 B 2024-05-06` the CN date-first pattern
(index 1) matches textually with the invalid month 13 after pattern 0 fails,
so the parse returns its title capture with no date — even though the later
numeric pattern (index 2) would have matched with the valid date 2024-05-06. -/
theorem parse_commits_to_first_textual_match_witness :
    parse_title_date "2025年13月 B 2024-05-06" = ("B 2024-05-06", none) ∧
    iso1Match (pyStripList "2025年13月 B 2024-05-06".data) =
      some ⟨"2025年13月 B".data, 2024, 5, some 6⟩ ∧
    dateValid 2024 5 6 = true := by
  refine ⟨?_, by decide, by decide⟩
  have h := parse_commits_to_first_textual_match "2025年13月 B 2024-05-06" 1 cn2Match
    ⟨"B 2024-05-06".data, 2025, 13, none⟩ rfl (by decide)
    (fun j hj pj hpj => by
      have hj0 : j = 0 := by omega
      subst hj0
      have h0 : (some cn1Match : Option (List Char → Option RawMatch)) = some pj := hpj
      rw [← Option.some.inj h0]
      decide)
    (by decide)
  rw [h]
  decide

/-! ## Claim C7: where the title capture sits inside the name

The four patterns force the title capture to be a non-empty prefix
(patterns 1 and 3) or a non-empty suffix (patterns 2 and 4) of the matched
name.  Since `parse_title_date` matches against the already-stripped name,
the capture contains a non-whitespace character and its own strip is
non-empty: the empty-title fallback branch can never run.
-/

/-- `a` is a suffix of `b`. -/
def tailOf (a b : List Char) : Prop :=
  ∃ u, b = u ++ a

theorem tailOf_refl (a : List Char) : tailOf a a :=
  ⟨[], rfl⟩

theorem tailOf_trans {a b c : List Char} (h1 : tailOf a b) (h2 : tailOf b c) : tailOf a c := by
  obtain ⟨u, hu⟩ := h1
  obtain ⟨v, hv⟩ := h2
  exact ⟨v ++ u, by rw [hv, hu, List.append_assoc]⟩

theorem tailOf_dropWhile (p : Char → Bool) (l : List Char) : tailOf (l.dropWhile p) l :=
  ⟨l.takeWhile p, (List.takeWhile_append_dropWhile p l).symm⟩

theorem tailOf_cons (c : Char) (rest : List Char) : tailOf rest (c :: rest) :=
  ⟨[c], rfl⟩

theorem grabYear_tailOf :
    ∀ {s : List Char} {y : Nat} {rest : List Char}, grabYear s = some (y, rest) → tailOf rest s := by
  intro s y rest h
  match s with
  | [] => simp [grabYear] at h
  | [a] => simp [grabYear] at h
  | [a, b] => simp [grabYear] at h
  | [a, b, c] => simp [grabYear] at h
  | a :: b :: c :: e :: r2 =>
    simp only [grabYear] at h
    split_ifs at h
    simp only [Option.some.injEq, Prod.mk.injEq] at h
    obtain ⟨-, h2⟩ := h
    exact ⟨[a, b, c, e], by simp [h2]⟩

theorem grab2or1_tailOf :
    ∀ {s : List Char} {v : Nat} {rest : List Char}, (v, rest) ∈ grab2or1 s → tailOf rest s := by
  intro s v rest h
  match s with
  | [] => simp [grab2or1] at h
  | [a] =>
    simp only [grab2or1] at h
    split_ifs at h
    · simp only [List.mem_singleton, Prod.mk.injEq] at h
      obtain ⟨-, h2⟩ := h
      exact ⟨[a], by simp [← h2]⟩
    · simp at h
  | a :: b :: r2 =>
    simp only [grab2or1] at h
    split_ifs at h
    · simp only [List.mem_cons, List.mem_singleton, List.not_mem_nil, Prod.mk.injEq,
        or_false] at h
      rcases h with ⟨-, h2⟩ | ⟨-, h2⟩
      · exact ⟨[a, b], by simp [← h2]⟩
      · exact ⟨[a], by simp [← h2]⟩
    · simp only [List.mem_singleton, Prod.mk.injEq] at h
      obtain ⟨-, h2⟩ := h
      exact ⟨[a], by simp [← h2]⟩
    · simp at h

theorem titleFrom_some {s : List Char} :
    ∀ {k : Nat} {t : List Char}, titleFrom s k = some t → t ≠ [] ∧ tailOf t s := by
  intro k
  induction k with
  | zero =>
    intro t h
    simp only [titleFrom] at h
    split_ifs at h with hc
    obtain rfl := Option.some.inj h
    have hne : s ≠ [] := by
      intro hnil
      exact hc (by simp [hnil])
    exact ⟨hne, tailOf_refl s⟩
  | succ k ih =>
    intro t h
    simp only [titleFrom] at h
    split_ifs at h with hc
    · exact ih h
    · obtain rfl := Option.some.inj h
      have hne : s.drop (k + 1) ≠ [] := by
        intro hnil
        exact hc (by simp [hnil])
      exact ⟨hne, ⟨s.take (k + 1), (List.take_append_drop (k + 1) s).symm⟩⟩

theorem tailTitle_some {s t : List Char} (h : tailTitle s = some t) :
    t ≠ [] ∧ tailOf t s :=
  titleFrom_some h

theorem orElse_eq_some_cases {α : Type} {a : Option α} {f : Unit → Option α} {r : α}
    (h : a.orElse f = some r) : a = some r ∨ f () = some r := by
  cases a with
  | some v => left; simpa [Option.orElse] using h
  | none => right; simpa [Option.orElse] using h

theorem cnDayTitle_title {s8 : List Char} {y m : Nat} {r : RawMatch}
    (h : cnDayTitle s8 y m = some r) : r.title ≠ [] ∧ tailOf r.title s8 := by
  simp only [cnDayTitle] at h
  rcases orElse_eq_some_cases h with hw | hw
  · obtain ⟨dd, hdd, hf⟩ := exists_of_findSome_eq_some hw
    split at hf
    next u3 heq =>
      obtain ⟨t, ht, hrt⟩ := Option.map_eq_some'.mp hf
      obtain rfl := hrt
      obtain ⟨htne, htail⟩ := tailTitle_some ht
      refine ⟨htne, ?_⟩
      have h3 : tailOf ('日' :: u3) dd.2 := heq ▸ tailOf_dropWhile pySpace dd.2
      have h4 : tailOf dd.2 (s8.dropWhile pySpace) := grab2or1_tailOf hdd
      exact tailOf_trans htail (tailOf_trans (tailOf_cons _ _)
        (tailOf_trans h3 (tailOf_trans h4 (tailOf_dropWhile pySpace s8))))
    next => exact absurd hf (by simp)
  · obtain ⟨t, ht, hrt⟩ := Option.map_eq_some'.mp hw
    obtain rfl := hrt
    obtain ⟨htne, htail⟩ := tailTitle_some ht
    exact ⟨htne, htail⟩

theorem cnMonthTitle_title {s5 : List Char} {y : Nat} {r : RawMatch}
    (h : cnMonthTitle s5 y = some r) : r.title ≠ [] ∧ tailOf r.title s5 := by
  simp only [cnMonthTitle] at h
  obtain ⟨mm, hmm, hf⟩ := exists_of_findSome_eq_some h
  split at hf
  next s8 heq =>
    obtain ⟨htne, htail⟩ := cnDayTitle_title hf
    refine ⟨htne, ?_⟩
    have h3 : tailOf ('月' :: s8) mm.2 := heq ▸ tailOf_dropWhile pySpace mm.2
    exact tailOf_trans htail (tailOf_trans (tailOf_cons _ _)
      (tailOf_trans h3 (grab2or1_tailOf hmm)))
  next => exact absurd hf (by simp)

theorem cn2Match_title {n : List Char} {r : RawMatch}
    (h : cn2Match n = some r) : r.title ≠ [] ∧ ∃ u, n = u ++ r.title := by
  simp only [cn2Match] at h
  split at h
  next y s2 heq =>
    split at h
    next s4 heq2 =>
      obtain ⟨htne, htail⟩ := cnMonthTitle_title h
      refine ⟨htne, ?_⟩
      have h2 : tailOf ('年' :: s4) s2 := heq2 ▸ tailOf_dropWhile pySpace s2
      have h3 : tailOf s2 n := grabYear_tailOf heq
      exact tailOf_trans htail (tailOf_trans (tailOf_dropWhile pySpace s4)
        (tailOf_trans (tailOf_cons _ _) (tailOf_trans h2 h3)))
    next => exact absurd h (by simp)
  next => exact absurd h (by simp)

theorem isoDayTitle_title {s4 : List Char} {y m : Nat} {r : RawMatch}
    (h : isoDayTitle s4 y m = some r) : r.title ≠ [] ∧ tailOf r.title s4 := by
  simp only [isoDayTitle] at h
  rcases orElse_eq_some_cases h with hw | hw
  · split at hw
    next c s5 =>
      split_ifs at hw
      obtain ⟨dd, hdd, hf⟩ := exists_of_findSome_eq_some hw
      obtain ⟨t, ht, hrt⟩ := Option.map_eq_some'.mp hf
      obtain rfl := hrt
      obtain ⟨htne, htail⟩ := tailTitle_some ht
      exact ⟨htne, tailOf_trans htail (tailOf_trans (grab2or1_tailOf hdd)
        (tailOf_cons _ _))⟩
    next => exact absurd hw (by simp)
  · obtain ⟨t, ht, hrt⟩ := Option.map_eq_some'.mp hw
    obtain rfl := hrt
    obtain ⟨htne, htail⟩ := tailTitle_some ht
    exact ⟨htne, htail⟩

theorem iso2Match_title {n : List Char} {r : RawMatch}
    (h : iso2Match n = some r) : r.title ≠ [] ∧ ∃ u, n = u ++ r.title := by
  simp only [iso2Match] at h
  split at h
  next y s2 heq =>
    split at h
    next c s3 =>
      split_ifs at h
      obtain ⟨mm, hmm, hf⟩ := exists_of_findSome_eq_some h
      obtain ⟨htne, htail⟩ := isoDayTitle_title hf
      refine ⟨htne, ?_⟩
      have h3 : tailOf (c :: s3) n := grabYear_tailOf heq
      exact tailOf_trans htail (tailOf_trans (grab2or1_tailOf hmm)
        (tailOf_trans (tailOf_cons _ _) h3))
    next => exact absurd h (by simp)
  next => exact absurd h (by simp)

theorem lazyGo_some {α : Type} (tf : List Char → Option α) :
    ∀ (s pre : List Char) (t : List Char) (v : α),
      lazyGo tf pre s = some (t, v) →
      ∃ mid rest, s = mid ++ rest ∧ mid ≠ [] ∧ t = pre ++ mid := by
  intro s
  induction s with
  | nil => intro pre t v h; simp [lazyGo] at h
  | cons c rest0 ih =>
    intro pre t v h
    simp only [lazyGo] at h
    split_ifs at h with hc
    cases htf : tf rest0 with
    | some r2 =>
      simp only [htf, Option.some.injEq, Prod.mk.injEq] at h
      obtain ⟨h1, -⟩ := h
      exact ⟨[c], rest0, rfl, by simp, h1.symm⟩
    | none =>
      simp only [htf] at h
      obtain ⟨mid, rest, hsplit, hne, ht⟩ := ih (pre ++ [c]) t v h
      exact ⟨c :: mid, rest, by rw [hsplit]; rfl, by simp,
        by rw [ht, List.append_assoc]; rfl⟩

theorem cn1Match_title {n : List Char} {r : RawMatch}
    (h : cn1Match n = some r) : r.title ≠ [] ∧ ∃ rest, n = r.title ++ rest := by
  simp only [cn1Match] at h
  obtain ⟨p, hp, hrp⟩ := Option.map_eq_some'.mp h
  obtain rfl := hrp
  obtain ⟨mid, rest, hsplit, hne, ht⟩ := lazyGo_some cn1Tail n [] p.1 p.2 (by
    rw [← hp])
  exact ⟨by simpa [ht] using hne, rest, by rw [hsplit, ht]; rfl⟩

theorem iso1Match_title {n : List Char} {r : RawMatch}
    (h : iso1Match n = some r) : r.title ≠ [] ∧ ∃ rest, n = r.title ++ rest := by
  simp only [iso1Match] at h
  obtain ⟨p, hp, hrp⟩ := Option.map_eq_some'.mp h
  obtain rfl := hrp
  obtain ⟨mid, rest, hsplit, hne, ht⟩ := lazyGo_some iso1Tail n [] p.1 p.2 (by
    rw [← hp])
  exact ⟨by simpa [ht] using hne, rest, by rw [hsplit, ht]; rfl⟩

theorem dropWhile_head_not {p : Char → Bool} :
    ∀ {l : List Char} {x : Char} {xs : List Char}, l.dropWhile p = x :: xs → p x = false := by
  intro l
  induction l with
  | nil => intro x xs h; simp at h
  | cons a as ih =>
    intro x xs h
    by_cases hpa : p a = true
    · rw [List.dropWhile_cons_of_pos hpa] at h
      exact ih h
    · rw [List.dropWhile_cons_of_neg hpa] at h
      obtain ⟨rfl, -⟩ := List.cons.injEq .. ▸ h
      exact Bool.not_eq_true _ ▸ hpa

/-- Stripping trailing whitespace leaves a run of leading characters: the
stripped list followed by a whitespace run reconstitutes the
leading-whitespace-stripped list. -/
theorem pyStripList_decomp (l : List Char) :
    ∃ w, l.dropWhile pySpace = pyStripList l ++ w ∧ ∀ c ∈ w, pySpace c = true := by
  refine ⟨((l.dropWhile pySpace).reverse.takeWhile pySpace).reverse, ?_, ?_⟩
  · conv_lhs => rw [← (l.dropWhile pySpace).reverse_reverse,
      ← List.takeWhile_append_dropWhile (p := pySpace) (l := (l.dropWhile pySpace).reverse)]
    rw [List.reverse_append]
    rfl
  · intro c hc
    rw [List.mem_reverse] at hc
    exact List.mem_takeWhile_imp hc

/-- A list containing a non-whitespace character does not strip to nothing. -/
theorem pyStripList_ne_nil_of_mem {l : List Char} {c : Char}
    (hc : c ∈ l) (hns : pySpace c = false) : pyStripList l ≠ [] := by
  intro hnil
  obtain ⟨w, hw, hws⟩ := pyStripList_decomp l
  rw [hnil, List.nil_append] at hw
  have hcw : pySpace c = true := by
    rw [← List.takeWhile_append_dropWhile (p := pySpace) (l := l)] at hc
    rcases List.mem_append.mp hc with h | h
    · exact List.mem_takeWhile_imp h
    · exact hws c (hw ▸ h)
  rw [hcw] at hns
  exact absurd hns (by simp)

/-- The first character of a stripped list is not whitespace. -/
theorem pyStripList_head_not {l : List Char} {x : Char} {xs : List Char}
    (h : pyStripList l = x :: xs) : pySpace x = false := by
  obtain ⟨w, hw, -⟩ := pyStripList_decomp l
  rw [h] at hw
  exact dropWhile_head_not (p := pySpace) (l := l) (by rw [hw]; rfl)

/-- The last character of a stripped list (first of its reverse) is not
whitespace. -/
theorem pyStripList_rev_head_not {l : List Char} {y : Char} {ys : List Char}
    (h : (pyStripList l).reverse = y :: ys) : pySpace y = false := by
  unfold pyStripList at h
  rw [List.reverse_reverse] at h
  exact dropWhile_head_not h

/-- C7 (amended): whenever any pattern matches the stripped folder name, the
trimmed title capture is non-empty — each pattern forces the capture to
contain the first or last (non-whitespace) character of the stripped name —
so `parse_title_date` returns the trimmed capture directly and the
removal-based fallback branch is unreachable. -/
theorem parse_title_capture_nonempty (s : String) (r : RawMatch)
    (h : firstPatMatch (pyStripList s.data) = some r) :
    pyStripList r.title ≠ [] ∧
    parse_title_date s = (⟨pyStripList r.title⟩, _to_date r.y r.m r.d) := by
  have hne : pyStripList r.title ≠ [] := by
    obtain ⟨pm, hpm, hmatch⟩ := exists_of_findSome_eq_some h
    have hpre : (∃ rest, pyStripList s.data = r.title ++ rest) → r.title ≠ [] →
        pyStripList r.title ≠ [] := by
      rintro ⟨rest, heq⟩ htne
      obtain ⟨x, xs, hx⟩ := List.exists_cons_of_ne_nil htne
      have hsd : pyStripList s.data = x :: (xs ++ rest) := by
        rw [heq, hx]
        rfl
      have hmem : x ∈ r.title := by
        rw [hx]
        exact List.mem_cons_self x xs
      exact pyStripList_ne_nil_of_mem hmem (pyStripList_head_not hsd)
    have hsuf : (∃ u, pyStripList s.data = u ++ r.title) → r.title ≠ [] →
        pyStripList r.title ≠ [] := by
      rintro ⟨u, heq⟩ htne
      have hrevne : r.title.reverse ≠ [] := by simpa using htne
      obtain ⟨y, ys, hy⟩ := List.exists_cons_of_ne_nil hrevne
      have hsd : (pyStripList s.data).reverse = y :: (ys ++ u.reverse) := by
        rw [heq, List.reverse_append, hy]
        rfl
      have hmem : y ∈ r.title := by
        rw [← List.mem_reverse, hy]
        exact List.mem_cons_self y ys
      exact pyStripList_ne_nil_of_mem hmem (pyStripList_rev_head_not hsd)
    simp only [patList, List.mem_cons, List.not_mem_nil, or_false] at hpm
    rcases hpm with rfl | rfl | rfl | rfl
    · obtain ⟨htne, hrest⟩ := cn1Match_title hmatch
      exact hpre hrest htne
    · obtain ⟨htne, hu⟩ := cn2Match_title hmatch
      exact hsuf hu htne
    · obtain ⟨htne, hrest⟩ := iso1Match_title hmatch
      exact hpre hrest htne
    · obtain ⟨htne, hu⟩ := iso2Match_title hmatch
      exact hsuf hu htne
  refine ⟨hne, ?_⟩
  simp only [parse_title_date, firstPatMatch] at h ⊢
  rw [h]
  simp [List.isEmpty_iff, hne]

/-- Counterexample to C7 as stated: `2025-08-24` is a date-only folder name
and a pattern does match it, yet the trimmed title capture is the non-empty
`"4"` (the backtracking steals a digit), so the removal-based derivation the
claim describes — which would fall back to the whole name — never runs: the
parse returns `("4", 2025-08-02)`, not `("2025-08-24", …)`. -/
theorem parse_title_capture_nonempty_counterexample :
    firstPatMatch (pyStripList "2025-08-24".data) = some ⟨['4'], 2025, 8, some 2⟩ ∧
    pyStripList ['4'] ≠ [] ∧
    parse_title_date "2025-08-24" = ("4", some ⟨2025, 8, 2⟩) ∧
    ("4" : String) ≠ "2025-08-24" := by
  exact ⟨by decide, by decide, by decide, by decide⟩

/-- Witness for C7 (amended): the match hypothesis discharged on
`天安门 2025 年 8 月 24 日`. -/
theorem parse_title_capture_nonempty_witness :
    pyStripList ("天安门".data) ≠ [] ∧
    parse_title_date "天安门 2025 年 8 月 24 日" =
      (⟨pyStripList ("天安门".data)⟩, _to_date 2025 8 (some 24)) := by
  exact parse_title_capture_nonempty "天安门 2025 年 8 月 24 日"
    ⟨"天安门".data, 2025, 8, some 24⟩ (by decide)

/-! ## Claim C1: infrastructure

The amended C1 is proved for folder names that consist of a digit-free,
newline-free, already-stripped, non-empty title and a date in one of the two
supported notations, joined by a single space, in either order.  The
development below analyses each pattern on such names: the matching pattern
extracts the title and the exact numeric components, and every
higher-priority pattern fails.
-/

theorem pyDigit_not_space {c : Char} (h : pyDigit c = true) : pySpace c = false := by
  have hval : 48 ≤ c.toNat ∧ c.toNat ≤ 57 := by
    simp only [pyDigit, Char.isDigit] at h
    simp only [Bool.and_eq_true, decide_eq_true_eq] at h
    exact ⟨h.1, h.2⟩
  simp only [pySpace, Bool.or_eq_false_iff, beq_eq_false_iff_ne, ne_eq]
  refine ⟨⟨⟨⟨⟨?_, ?_⟩, ?_⟩, ?_⟩, ?_⟩, ?_⟩ <;>
    · intro hc
      subst hc
      exact absurd hval (by decide)

theorem tailOf_length {a b : List Char} (h : tailOf a b) : a.length ≤ b.length := by
  obtain ⟨u, hu⟩ := h
  rw [hu, List.length_append]
  omega

theorem mem_of_tailOf {a b : List Char} {c : Char} (h : tailOf a b) (hc : c ∈ a) : c ∈ b := by
  obtain ⟨u, hu⟩ := h
  rw [hu, List.mem_append]
  exact Or.inr hc

theorem tailOf_cons_cases {u : List Char} {c : Char} {rest : List Char}
    (h : tailOf u (c :: rest)) : u = c :: rest ∨ tailOf u rest := by
  obtain ⟨v, hv⟩ := h
  cases v with
  | nil => left; simpa using hv.symm
  | cons a vs =>
    right
    refine ⟨vs, ?_⟩
    have : c :: rest = a :: (vs ++ u) := hv
    injection this with h1 h2

theorem tailOf_append_cases {u A B : List Char} (h : tailOf u (A ++ B)) :
    (∃ v, tailOf v A ∧ u = v ++ B) ∨ tailOf u B := by
  induction A with
  | nil =>
    right
    simpa using h
  | cons a A2 ih =>
    rcases tailOf_cons_cases (by simpa using h) with h2 | h2
    · exact Or.inl ⟨a :: A2, tailOf_refl _, h2⟩
    · rcases ih h2 with ⟨v, hv, hu⟩ | h3
      · exact Or.inl ⟨v, tailOf_trans hv (tailOf_cons a A2), hu⟩
      · exact Or.inr h3

theorem mem_of_dropWhile_head {p : Char → Bool} {l : List Char} {x : Char} {xs : List Char}
    (h : l.dropWhile p = x :: xs) : x ∈ l := by
  have : x ∈ l.dropWhile p := by rw [h]; exact List.mem_cons_self x xs
  rw [← List.takeWhile_append_dropWhile (p := p) (l := l), List.mem_append]
  exact Or.inr this

theorem hasNewline_eq_false {l : List Char} (h : ∀ c ∈ l, c ≠ '\n') :
    hasNewline l = false := by
  simp only [hasNewline, List.any_eq_false, beq_eq_false_iff_ne, ne_eq]
  intro x hx
  simpa using h x hx

theorem pyStripList_eq_self_of {l : List Char}
    (h1 : ∀ (x : Char) (xs : List Char), l = x :: xs → pySpace x = false)
    (h2 : ∀ (y : Char) (ys : List Char), l.reverse = y :: ys → pySpace y = false) :
    pyStripList l = l := by
  unfold pyStripList
  have hd : l.dropWhile pySpace = l := by
    cases hl : l with
    | nil => rfl
    | cons x xs => exact List.dropWhile_cons_of_neg (by simp [h1 x xs hl])
  rw [hd]
  have hr : l.reverse.dropWhile pySpace = l.reverse := by
    cases hrev : l.reverse with
    | nil => simp [hrev]
    | cons y ys =>
      exact List.dropWhile_cons_of_neg (by simp [h2 y ys hrev])
  rw [hr, List.reverse_reverse]

theorem grabYear_digits {s : List Char} (h : grabYear s ≠ none) :
    4 ≤ s.length ∧ ∀ c ∈ s.take 4, pyDigit c = true := by
  match s with
  | [] => exact absurd rfl h
  | [a] => exact absurd rfl h
  | [a, b] => exact absurd rfl h
  | [a, b, c] => exact absurd rfl h
  | a :: b :: c :: e :: r2 =>
    simp only [grabYear] at h
    split_ifs at h with hd
    · simp only [Bool.and_eq_true] at hd
      refine ⟨by simp, ?_⟩
      intro x hx
      simp only [List.take, List.mem_cons, List.not_mem_nil, or_false] at hx
      rcases hx with rfl | rfl | rfl | rfl
      · exact hd.1.1.1
      · exact hd.1.1.2
      · exact hd.1.2
      · exact hd.2
    · exact absurd rfl h

theorem grabYear_none_at {l : List Char} {c : Char} {r : List Char}
    (hlen : l.length ≤ 3) (hc : pyDigit c = false) : grabYear (l ++ c :: r) = none := by
  by_contra h
  obtain ⟨-, hall⟩ := grabYear_digits h
  have hcmem : c ∈ (l ++ c :: r).take 4 := by
    rw [List.take_append_eq_append_take]
    refine List.mem_append.mpr (Or.inr ?_)
    have h4 : 1 ≤ 4 - l.length := by omega
    cases hk : 4 - l.length with
    | zero => omega
    | succ n => exact List.mem_cons_self c _
  rw [hall c hcmem] at hc
  exact absurd hc (by simp)

theorem cn1Tail_none_of_grabYear {u : List Char}
    (h : grabYear (u.dropWhile pySpace) = none) : cn1Tail u = none := by
  simp [cn1Tail, h]

theorem iso1Tail_none_of_grabYear {u : List Char}
    (h : grabYear (u.dropWhile pySpace) = none) : iso1Tail u = none := by
  simp [iso1Tail, h]

theorem cn1Tail_congr {u v : List Char} (h : u.dropWhile pySpace = v.dropWhile pySpace) :
    cn1Tail u = cn1Tail v := by
  simp [cn1Tail, h]

theorem cn1Tail_none_notNian {u : List Char} {y : Nat} {s2 : List Char}
    (hg : grabYear (u.dropWhile pySpace) = some (y, s2))
    (hs : ∀ s4, s2.dropWhile pySpace ≠ '年' :: s4) : cn1Tail u = none := by
  simp only [cn1Tail, hg]

theorem cn2Match_none_of_grabYear {n : List Char} (h : grabYear n = none) :
    cn2Match n = none := by
  simp [cn2Match, h]

theorem cn2Match_none_notNian {n : List Char} {y : Nat} {s2 : List Char}
    (hg : grabYear n = some (y, s2))
    (hs : ∀ s4, s2.dropWhile pySpace ≠ '年' :: s4) : cn2Match n = none := by
  simp only [cn2Match, hg]

theorem grab2or1_nil_of_head {x : Char} {xs : List Char} (hx : pyDigit x = false) :
    grab2or1 (x :: xs) = [] := by
  cases xs with
  | nil => simp [grab2or1, hx]
  | cons b r => simp [grab2or1, hx]

/-- Every non-empty suffix of a stripped list contains a non-whitespace
character (its last one). -/
theorem exists_nonspace_in_suffix {t u : List Char}
    (hstrip : pyStripList t = t) (hu : tailOf u t) (hne : u ≠ []) :
    ∃ c ∈ u, pySpace c = false := by
  have hrevne : u.reverse ≠ [] := by simpa using hne
  obtain ⟨y, ys, hy⟩ := List.exists_cons_of_ne_nil hrevne
  obtain ⟨w, hw⟩ := hu
  have htrev : (pyStripList t).reverse = y :: (ys ++ w.reverse) := by
    rw [hstrip, hw, List.reverse_append, hy]
    rfl
  refine ⟨y, ?_, pyStripList_rev_head_not htrev⟩
  rw [← List.mem_reverse, hy]
  exact List.mem_cons_self y ys

theorem dropWhile_append_of_mem {p : Char → Bool} :
    ∀ {u : List Char} (rest : List Char), (∃ c ∈ u, p c = false) →
      (u ++ rest).dropWhile p = u.dropWhile p ++ rest := by
  intro u
  induction u with
  | nil => intro rest h; simp at h
  | cons a u2 ih =>
    intro rest h
    by_cases hpa : p a = true
    · have h2 : ∃ c ∈ u2, p c = false := by
        obtain ⟨c, hc, hcp⟩ := h
        rcases List.mem_cons.mp hc with rfl | hc2
        · rw [hpa] at hcp; exact absurd hcp (by simp)
        · exact ⟨c, hc2, hcp⟩
      rw [List.cons_append, List.dropWhile_cons_of_pos hpa,
        List.dropWhile_cons_of_pos hpa]
      exact ih rest h2
    · rw [List.cons_append, List.dropWhile_cons_of_neg hpa,
        List.dropWhile_cons_of_neg hpa]
      rfl

/-- Both lazy-title tails fail on `u ++ rest` when `u` is digit-free and has
a non-whitespace character: after the whitespace skip the head character
comes from `u` and is not a digit, so `\d{4}` cannot start. -/
theorem tail_none_within_title {u rest : List Char}
    (hud : ∀ c ∈ u, pyDigit c = false) (hex : ∃ c ∈ u, pySpace c = false) :
    cn1Tail (u ++ rest) = none ∧ iso1Tail (u ++ rest) = none := by
  have hdw := dropWhile_append_of_mem (p := pySpace) rest hex
  have hne : u.dropWhile pySpace ≠ [] := by
    intro hnil
    obtain ⟨c, hc, hcp⟩ := hex
    rw [List.dropWhile_eq_nil_iff.mp hnil c hc] at hcp
    exact absurd hcp (by simp)
  obtain ⟨x, xs, hx⟩ := List.exists_cons_of_ne_nil hne
  have hxd : pyDigit x = false := hud x (mem_of_dropWhile_head hx)
  have hgrab : grabYear ((u ++ rest).dropWhile pySpace) = none := by
    rw [hdw, hx]
    exact grabYear_none_at (l := []) (by simp) hxd
  exact ⟨cn1Tail_none_of_grabYear hgrab, iso1Tail_none_of_grabYear hgrab⟩

/-- If every proper suffix fails the tail matcher, the lazy-title loop finds
no match. -/
theorem lazyGo_none {α : Type} (tf : List Char → Option α) :
    ∀ (s : List Char) (pre : List Char),
      (∀ u, tailOf u s → u.length < s.length → tf u = none) →
      lazyGo tf pre s = none := by
  intro s
  induction s with
  | nil => intro pre h; rfl
  | cons c rest ih =>
    intro pre h
    simp only [lazyGo]
    split_ifs with hc
    · rfl
    · rw [h rest (tailOf_cons c rest) (by simp)]
      exact ih (pre ++ [c]) fun u hu hlen =>
        h u (tailOf_trans hu (tailOf_cons c rest)) (by simp; omega)

/-- If the tail matcher fails after every proper non-empty suffix of `mid`
but succeeds exactly after all of `mid`, the lazy-title loop stops with
title `mid`. -/
theorem lazyGo_through {α : Type} (tf : List Char → Option α) :
    ∀ (mid : List Char) (pre rest : List Char) (v : α), mid ≠ [] →
      (∀ c ∈ mid, c ≠ '\n') →
      (∀ u, tailOf u mid → u ≠ [] → u.length < mid.length → tf (u ++ rest) = none) →
      tf rest = some v →
      lazyGo tf pre (mid ++ rest) = some (pre ++ mid, v) := by
  intro mid
  induction mid with
  | nil => intro pre rest v hne; exact absurd rfl hne
  | cons x mid2 ih =>
    intro pre rest v hne hnl hfail hv
    simp only [List.cons_append, lazyGo, List.append_eq]
    rw [if_neg (by simpa using hnl x (List.mem_cons_self x mid2))]
    cases mid2 with
    | nil => simp [hv]
    | cons z mid3 =>
      have hmidfail : tf ((z :: mid3) ++ rest) = none :=
        hfail (z :: mid3) (tailOf_cons x (z :: mid3)) (by simp) (by simp)
      rw [hmidfail]
      have := ih (pre ++ [x]) rest v (by simp)
        (fun c hcm => hnl c (List.mem_cons_of_mem x hcm))
        (fun u hu hune hlen =>
          hfail u (tailOf_trans hu (tailOf_cons x (z :: mid3))) hune (by simp at hlen ⊢; omega))
        hv
      rw [this, List.append_assoc]
      rfl

/-- `\s*(?P<title>.+?)$` succeeds on a single space followed by a stripped,
newline-free, non-empty title and captures exactly the title. -/
theorem tailTitle_space_title {t : List Char} {x : Char} {xs : List Char}
    (ht : t = x :: xs) (hx : pySpace x = false) (hnl : ∀ c ∈ t, c ≠ '\n') :
    tailTitle (' ' :: t) = some t := by
  have htw : (' ' :: t).takeWhile pySpace = [' '] := by
    rw [List.takeWhile_cons_of_pos (by decide), ht, List.takeWhile_cons_of_neg (by simp [hx])]
  simp only [tailTitle, htw, List.length_cons, List.length_nil]
  show titleFrom (' ' :: t) 1 = some t
  simp only [titleFrom, List.drop_succ_cons, List.drop_zero]
  rw [hasNewline_eq_false hnl]
  have hne2 : t.isEmpty = false := by simp [ht]
  simp [hne2]

/-- The long-form CN date rendering `Y 年 M 月` / `Y 年 M 月 D 日`. -/
def cnDateChars (ys ms : List Char) (ds : Option (List Char)) : List Char :=
  ys ++ [' ', '年', ' '] ++ ms ++ [' ', '月'] ++
    (match ds with
     | none => []
     | some dd => [' '] ++ dd ++ [' ', '日'])

/-- The numeric date rendering `Y<sep>M` / `Y<sep>M<sep>D`. -/
def isoDateChars (sep : Char) (ys ms : List Char) (ds : Option (List Char)) : List Char :=
  ys ++ [sep] ++ ms ++
    (match ds with
     | none => []
     | some dd => sep :: dd)

theorem chSp : pySpace ' ' = true ∧ pySpace '年' = false ∧ pySpace '月' = false ∧
    pySpace '日' = false := by
  refine ⟨by decide, by decide, by decide, by decide⟩

theorem chDg : pyDigit ' ' = false ∧ pyDigit '年' = false ∧ pyDigit '月' = false ∧
    pyDigit '日' = false := by
  refine ⟨by decide, by decide, by decide, by decide⟩

theorem cn1Tail_on_date {y1 y2 y3 y4 : Char} {ms : List Char} {ds : Option (List Char)}
    (hy1 : pyDigit y1 = true) (hy2 : pyDigit y2 = true) (hy3 : pyDigit y3 = true)
    (hy4 : pyDigit y4 = true)
    (hms : (∃ m1, ms = [m1] ∧ pyDigit m1 = true) ∨
           (∃ m1 m2, ms = [m1, m2] ∧ pyDigit m1 = true ∧ pyDigit m2 = true))
    (hds : ds = none ∨ (∃ d1, ds = some [d1] ∧ pyDigit d1 = true) ∨
           (∃ d1 d2, ds = some [d1, d2] ∧ pyDigit d1 = true ∧ pyDigit d2 = true)) :
    cn1Tail (' ' :: cnDateChars [y1, y2, y3, y4] ms ds) =
      some (natOfDigits [y1, y2, y3, y4], natOfDigits ms, ds.map natOfDigits) := by
  rcases hms with ⟨m1, rfl, hm1⟩ | ⟨m1, m2, rfl, hm1, hm2⟩ <;>
    rcases hds with rfl | ⟨d1, rfl, hd1⟩ | ⟨d1, d2, rfl, hd1, hd2⟩ <;>
      simp_all [cn1Tail, cnDateChars, grabYear, grab2or1, cnMonthTail, cnDayTail,
        List.dropWhile_cons, Option.orElse, natOfDigits, pyDigit_not_space,
        chSp, chDg]

theorem isoSep_cases {c : Char} (h : isoSep c = true) : c = '-' ∨ c = '/' ∨ c = '.' := by
  simp only [isoSep, Bool.or_eq_true, beq_iff_eq] at h
  tauto

theorem isoSep_not_space {c : Char} (h : isoSep c = true) : pySpace c = false := by
  rcases isoSep_cases h with rfl | rfl | rfl <;> decide

theorem isoSep_not_digit {c : Char} (h : isoSep c = true) : pyDigit c = false := by
  rcases isoSep_cases h with rfl | rfl | rfl <;> decide

theorem isoSep_ne_nian {c : Char} (h : isoSep c = true) : c ≠ '年' := by
  rcases isoSep_cases h with rfl | rfl | rfl <;> decide

theorem isoSep_space_false : isoSep ' ' = false := by decide

theorem cn2Match_on_name {y1 y2 y3 y4 : Char} {ms t : List Char} {ds : Option (List Char)}
    {x : Char} {xs : List Char}
    (hy1 : pyDigit y1 = true) (hy2 : pyDigit y2 = true) (hy3 : pyDigit y3 = true)
    (hy4 : pyDigit y4 = true)
    (hms : (∃ m1, ms = [m1] ∧ pyDigit m1 = true) ∨
           (∃ m1 m2, ms = [m1, m2] ∧ pyDigit m1 = true ∧ pyDigit m2 = true))
    (hds : ds = none ∨ (∃ d1, ds = some [d1] ∧ pyDigit d1 = true) ∨
           (∃ d1 d2, ds = some [d1, d2] ∧ pyDigit d1 = true ∧ pyDigit d2 = true))
    (ht : t = x :: xs) (hx : pySpace x = false) (hxd : pyDigit x = false)
    (hnl : ∀ c ∈ t, c ≠ '\n') :
    cn2Match (cnDateChars [y1, y2, y3, y4] ms ds ++ ' ' :: t) =
      some ⟨t, natOfDigits [y1, y2, y3, y4], natOfDigits ms, ds.map natOfDigits⟩ := by
  have htt := tailTitle_space_title ht hx hnl
  have hgt : grab2or1 t = [] := ht ▸ grab2or1_nil_of_head hxd
  rcases hms with ⟨m1, rfl, hm1⟩ | ⟨m1, m2, rfl, hm1, hm2⟩ <;>
    rcases hds with rfl | ⟨d1, rfl, hd1⟩ | ⟨d1, d2, rfl, hd1, hd2⟩ <;>
      simp_all [cn2Match, cnDateChars, grabYear, grab2or1, cnMonthTitle, cnDayTitle,
        List.dropWhile_cons, Option.orElse, natOfDigits, pyDigit_not_space,
        chSp, chDg]

theorem iso1Tail_on_date {sep y1 y2 y3 y4 : Char} {ms : List Char} {ds : Option (List Char)}
    (hsep : isoSep sep = true)
    (hy1 : pyDigit y1 = true) (hy2 : pyDigit y2 = true) (hy3 : pyDigit y3 = true)
    (hy4 : pyDigit y4 = true)
    (hms : (∃ m1, ms = [m1] ∧ pyDigit m1 = true) ∨
           (∃ m1 m2, ms = [m1, m2] ∧ pyDigit m1 = true ∧ pyDigit m2 = true))
    (hds : ds = none ∨ (∃ d1, ds = some [d1] ∧ pyDigit d1 = true) ∨
           (∃ d1 d2, ds = some [d1, d2] ∧ pyDigit d1 = true ∧ pyDigit d2 = true)) :
    iso1Tail (' ' :: isoDateChars sep [y1, y2, y3, y4] ms ds) =
      some (natOfDigits [y1, y2, y3, y4], natOfDigits ms, ds.map natOfDigits) := by
  rcases hms with ⟨m1, rfl, hm1⟩ | ⟨m1, m2, rfl, hm1, hm2⟩ <;>
    rcases hds with rfl | ⟨d1, rfl, hd1⟩ | ⟨d1, d2, rfl, hd1, hd2⟩ <;>
      simp_all [iso1Tail, isoDateChars, grabYear, grab2or1, isoMonthTail, isoDayTail,
        List.dropWhile_cons, Option.orElse, natOfDigits, pyDigit_not_space,
        isoSep_not_space hsep, isoSep_not_digit hsep, chSp, chDg]

theorem iso2Match_on_name {sep y1 y2 y3 y4 : Char} {ms t : List Char} {ds : Option (List Char)}
    {x : Char} {xs : List Char}
    (hsep : isoSep sep = true)
    (hy1 : pyDigit y1 = true) (hy2 : pyDigit y2 = true) (hy3 : pyDigit y3 = true)
    (hy4 : pyDigit y4 = true)
    (hms : (∃ m1, ms = [m1] ∧ pyDigit m1 = true) ∨
           (∃ m1 m2, ms = [m1, m2] ∧ pyDigit m1 = true ∧ pyDigit m2 = true))
    (hds : ds = none ∨ (∃ d1, ds = some [d1] ∧ pyDigit d1 = true) ∨
           (∃ d1 d2, ds = some [d1, d2] ∧ pyDigit d1 = true ∧ pyDigit d2 = true))
    (ht : t = x :: xs) (hx : pySpace x = false) (hxd : pyDigit x = false)
    (hnl : ∀ c ∈ t, c ≠ '\n') :
    iso2Match (isoDateChars sep [y1, y2, y3, y4] ms ds ++ ' ' :: t) =
      some ⟨t, natOfDigits [y1, y2, y3, y4], natOfDigits ms, ds.map natOfDigits⟩ := by
  have htt := tailTitle_space_title ht hx hnl
  have hgt : grab2or1 t = [] := ht ▸ grab2or1_nil_of_head hxd
  rcases hms with ⟨m1, rfl, hm1⟩ | ⟨m1, m2, rfl, hm1, hm2⟩ <;>
    rcases hds with rfl | ⟨d1, rfl, hd1⟩ | ⟨d1, d2, rfl, hd1, hd2⟩ <;>
      simp_all [iso2Match, isoDateChars, grabYear, grab2or1, isoDayTitle,
        List.dropWhile_cons, Option.orElse, natOfDigits, pyDigit_not_space,
        isoSep_not_space hsep, isoSep_not_digit hsep, isoSep_space_false, chSp, chDg]

theorem grabYear_none_short {s : List Char} (h : s.length ≤ 3) : grabYear s = none := by
  by_contra hc
  have := (grabYear_digits hc).1
  omega

theorem grabYear_none_of_short {u : List Char} (h : u.length ≤ 3) :
    grabYear (u.dropWhile pySpace) = none :=
  grabYear_none_short (le_trans (tailOf_length (tailOf_dropWhile pySpace u)) h)

theorem grabYear_none_of_nodigit {u : List Char} (h : ∀ c ∈ u, pyDigit c = false) :
    grabYear (u.dropWhile pySpace) = none := by
  cases hdw : u.dropWhile pySpace with
  | nil => rfl
  | cons y ys =>
    exact hdw ▸ grabYear_none_at (l := []) (by simp) (h y (mem_of_dropWhile_head hdw))

theorem grabYear_none_head {c : Char} {r : List Char}
    (hcs : pySpace c = false) (hcd : pyDigit c = false) :
    grabYear ((c :: r).dropWhile pySpace) = none := by
  rw [List.dropWhile_cons_of_neg (by simp [hcs])]
  exact grabYear_none_at (l := []) (by simp) hcd

theorem grabYear_none_run {a : Char} {v r : List Char} {c : Char}
    (ha : pyDigit a = true) (hv : (a :: v).length ≤ 3) (hc : pyDigit c = false) :
    grabYear (((a :: v) ++ c :: r).dropWhile pySpace) = none := by
  rw [List.cons_append, List.dropWhile_cons_of_neg (by simp [pyDigit_not_space ha])]
  exact grabYear_none_at (l := a :: v) hv hc

/-- `str.strip()` is the identity on a list whose first and last characters
are not whitespace. -/
theorem pyStripList_eq_self_snoc {x : Char} {mid : List Char} {c : Char}
    (hx : pySpace x = false) (hc : pySpace c = false) :
    pyStripList (x :: (mid ++ [c])) = x :: (mid ++ [c]) := by
  apply pyStripList_eq_self_of
  · intro a as h
    injection h with h1 _
    rw [← h1]
    exact hx
  · intro y ys h
    rw [List.reverse_cons, List.reverse_append, List.reverse_singleton,
      List.singleton_append, List.cons_append] at h
    injection h with h1 _
    rw [← h1]
    exact hc

/-- Generic region argument: at any suffix of a digit block of length at most
two followed by a non-space non-digit character, `\d{4}` cannot start. -/
theorem grabYear_none_msRegion {ms X : List Char} {c : Char}
    (hmsd : ∀ a ∈ ms, pyDigit a = true) (hmsl : ms.length ≤ 2)
    (hcd : pyDigit c = false)
    (hnil : grabYear ((c :: X).dropWhile pySpace) = none) :
    ∀ v, tailOf v ms → grabYear ((v ++ c :: X).dropWhile pySpace) = none := by
  intro v hv
  cases v with
  | nil =>
    simp only [List.nil_append]
    exact hnil
  | cons a v2 =>
    refine grabYear_none_run (hmsd a (mem_of_tailOf hv (List.mem_cons_self a v2))) ?_ hcd
    have h1 := tailOf_length hv
    simp only [List.length_cons] at h1 ⊢
    omega

/-- No proper suffix of a CN date-first name can start with four digits. -/
theorem grabYear_none_suffix_cn {y1 y2 y3 y4 : Char} {ms t : List Char}
    {ds : Option (List Char)}
    (hy2 : pyDigit y2 = true) (hy3 : pyDigit y3 = true) (hy4 : pyDigit y4 = true)
    (hmsd : ∀ c ∈ ms, pyDigit c = true) (hmsl : ms.length ≤ 2)
    (hds : ds = none ∨ ∃ e dd2, ds = some (e :: dd2) ∧
      (∀ c ∈ e :: dd2, pyDigit c = true) ∧ dd2.length ≤ 1)
    (htd : ∀ c ∈ t, pyDigit c = false) :
    ∀ u, tailOf u (cnDateChars [y1, y2, y3, y4] ms ds ++ ' ' :: t) →
      u.length < (cnDateChars [y1, y2, y3, y4] ms ds ++ ' ' :: t).length →
      grabYear (u.dropWhile pySpace) = none := by
  rcases hds with rfl | ⟨e, dd2, rfl, hed, hdd2⟩
  · have hname : cnDateChars [y1, y2, y3, y4] ms none ++ ' ' :: t =
        y1 :: y2 :: y3 :: y4 :: ' ' :: '年' :: ' ' :: (ms ++ (' ' :: '月' :: ' ' :: t)) := by
      simp [cnDateChars]
    intro u hu hlen
    rw [hname] at hu hlen
    rcases tailOf_cons_cases hu with rfl | hu
    · exact absurd hlen (lt_irrefl _)
    rcases tailOf_cons_cases hu with rfl | hu
    · exact grabYear_none_run (v := [y3, y4]) (c := ' ') hy2 (by simp) (by decide)
    rcases tailOf_cons_cases hu with rfl | hu
    · exact grabYear_none_run (v := [y4]) (c := ' ') hy3 (by simp) (by decide)
    rcases tailOf_cons_cases hu with rfl | hu
    · exact grabYear_none_run (v := []) (c := ' ') hy4 (by simp) (by decide)
    rcases tailOf_cons_cases hu with rfl | hu
    · rw [List.dropWhile_cons_of_pos (by decide)]
      exact grabYear_none_head (by decide) (by decide)
    rcases tailOf_cons_cases hu with rfl | hu
    · exact grabYear_none_head (by decide) (by decide)
    rcases tailOf_cons_cases hu with rfl | hu
    · rw [List.dropWhile_cons_of_pos (by decide)]
      exact grabYear_none_msRegion hmsd hmsl (by decide) (by rw [List.dropWhile_cons_of_pos (by decide)]; exact grabYear_none_head (by decide) (by decide)) ms (tailOf_refl ms)
    rcases tailOf_append_cases hu with ⟨v, hv, rfl⟩ | hu
    · exact grabYear_none_msRegion hmsd hmsl (by decide) (by rw [List.dropWhile_cons_of_pos (by decide)]; exact grabYear_none_head (by decide) (by decide)) v hv
    rcases tailOf_cons_cases hu with rfl | hu
    · rw [List.dropWhile_cons_of_pos (by decide)]
      exact grabYear_none_head (by decide) (by decide)
    rcases tailOf_cons_cases hu with rfl | hu
    · exact grabYear_none_head (by decide) (by decide)
    rcases tailOf_cons_cases hu with rfl | hu
    · rw [List.dropWhile_cons_of_pos (by decide)]
      exact grabYear_none_of_nodigit htd
    · exact grabYear_none_of_nodigit (fun c hc => htd c (mem_of_tailOf hu hc))
  · have hdl : (e :: dd2).length ≤ 2 := by
      simp only [List.length_cons]
      omega
    have hname : cnDateChars [y1, y2, y3, y4] ms (some (e :: dd2)) ++ ' ' :: t =
        y1 :: y2 :: y3 :: y4 :: ' ' :: '年' :: ' ' ::
          (ms ++ (' ' :: '月' :: ' ' :: ((e :: dd2) ++ ' ' :: '日' :: ' ' :: t))) := by
      simp [cnDateChars]
    intro u hu hlen
    rw [hname] at hu hlen
    rcases tailOf_cons_cases hu with rfl | hu
    · exact absurd hlen (lt_irrefl _)
    rcases tailOf_cons_cases hu with rfl | hu
    · exact grabYear_none_run (v := [y3, y4]) (c := ' ') hy2 (by simp) (by decide)
    rcases tailOf_cons_cases hu with rfl | hu
    · exact grabYear_none_run (v := [y4]) (c := ' ') hy3 (by simp) (by decide)
    rcases tailOf_cons_cases hu with rfl | hu
    · exact grabYear_none_run (v := []) (c := ' ') hy4 (by simp) (by decide)
    rcases tailOf_cons_cases hu with rfl | hu
    · rw [List.dropWhile_cons_of_pos (by decide)]
      exact grabYear_none_head (by decide) (by decide)
    rcases tailOf_cons_cases hu with rfl | hu
    · exact grabYear_none_head (by decide) (by decide)
    rcases tailOf_cons_cases hu with rfl | hu
    · rw [List.dropWhile_cons_of_pos (by decide)]
      exact grabYear_none_msRegion hmsd hmsl (by decide) (by rw [List.dropWhile_cons_of_pos (by decide)]; exact grabYear_none_head (by decide) (by decide)) ms (tailOf_refl ms)
    rcases tailOf_append_cases hu with ⟨v, hv, rfl⟩ | hu
    · exact grabYear_none_msRegion hmsd hmsl (by decide) (by rw [List.dropWhile_cons_of_pos (by decide)]; exact grabYear_none_head (by decide) (by decide)) v hv
    rcases tailOf_cons_cases hu with rfl | hu
    · rw [List.dropWhile_cons_of_pos (by decide)]
      exact grabYear_none_head (by decide) (by decide)
    rcases tailOf_cons_cases hu with rfl | hu
    · exact grabYear_none_head (by decide) (by decide)
    rcases tailOf_cons_cases hu with rfl | hu
    · rw [List.dropWhile_cons_of_pos (by decide)]
      exact grabYear_none_msRegion hed hdl (by decide) (by rw [List.dropWhile_cons_of_pos (by decide)]; exact grabYear_none_head (by decide) (by decide)) (e :: dd2) (tailOf_refl _)
    rcases tailOf_append_cases hu with ⟨v, hv, rfl⟩ | hu
    · exact grabYear_none_msRegion hed hdl (by decide) (by rw [List.dropWhile_cons_of_pos (by decide)]; exact grabYear_none_head (by decide) (by decide)) v hv
    rcases tailOf_cons_cases hu with rfl | hu
    · rw [List.dropWhile_cons_of_pos (by decide)]
      exact grabYear_none_head (by decide) (by decide)
    rcases tailOf_cons_cases hu with rfl | hu
    · exact grabYear_none_head (by decide) (by decide)
    rcases tailOf_cons_cases hu with rfl | hu
    · rw [List.dropWhile_cons_of_pos (by decide)]
      exact grabYear_none_of_nodigit htd
    · exact grabYear_none_of_nodigit (fun c hc => htd c (mem_of_tailOf hu hc))

/-- No proper suffix of a numeric date-first name can start with four digits. -/
theorem grabYear_none_suffix_iso {y1 y2 y3 y4 sep : Char} {ms t : List Char}
    {ds : Option (List Char)}
    (hy2 : pyDigit y2 = true) (hy3 : pyDigit y3 = true) (hy4 : pyDigit y4 = true)
    (hsep : isoSep sep = true)
    (hmsd : ∀ c ∈ ms, pyDigit c = true) (hmsl : ms.length ≤ 2)
    (hds : ds = none ∨ ∃ e dd2, ds = some (e :: dd2) ∧
      (∀ c ∈ e :: dd2, pyDigit c = true) ∧ dd2.length ≤ 1)
    (htd : ∀ c ∈ t, pyDigit c = false) :
    ∀ u, tailOf u (isoDateChars sep [y1, y2, y3, y4] ms ds ++ ' ' :: t) →
      u.length < (isoDateChars sep [y1, y2, y3, y4] ms ds ++ ' ' :: t).length →
      grabYear (u.dropWhile pySpace) = none := by
  have hsd := isoSep_not_digit hsep
  have hss := isoSep_not_space hsep
  rcases hds with rfl | ⟨e, dd2, rfl, hed, hdd2⟩
  · have hname : isoDateChars sep [y1, y2, y3, y4] ms none ++ ' ' :: t =
        y1 :: y2 :: y3 :: y4 :: sep :: (ms ++ ' ' :: t) := by
      simp [isoDateChars]
    intro u hu hlen
    rw [hname] at hu hlen
    rcases tailOf_cons_cases hu with rfl | hu
    · exact absurd hlen (lt_irrefl _)
    rcases tailOf_cons_cases hu with rfl | hu
    · exact grabYear_none_run (v := [y3, y4]) (c := sep) hy2 (by simp) hsd
    rcases tailOf_cons_cases hu with rfl | hu
    · exact grabYear_none_run (v := [y4]) (c := sep) hy3 (by simp) hsd
    rcases tailOf_cons_cases hu with rfl | hu
    · exact grabYear_none_run (v := []) (c := sep) hy4 (by simp) hsd
    rcases tailOf_cons_cases hu with rfl | hu
    · exact grabYear_none_head hss hsd
    rcases tailOf_append_cases hu with ⟨v, hv, rfl⟩ | hu
    · exact grabYear_none_msRegion hmsd hmsl (by decide)
        (by rw [List.dropWhile_cons_of_pos (by decide)]
            exact grabYear_none_of_nodigit htd) v hv
    rcases tailOf_cons_cases hu with rfl | hu
    · rw [List.dropWhile_cons_of_pos (by decide)]
      exact grabYear_none_of_nodigit htd
    · exact grabYear_none_of_nodigit (fun c hc => htd c (mem_of_tailOf hu hc))
  · have hdl : (e :: dd2).length ≤ 2 := by
      simp only [List.length_cons]
      omega
    have hname : isoDateChars sep [y1, y2, y3, y4] ms (some (e :: dd2)) ++ ' ' :: t =
        y1 :: y2 :: y3 :: y4 :: sep :: (ms ++ (sep :: ((e :: dd2) ++ ' ' :: t))) := by
      simp [isoDateChars]
    intro u hu hlen
    rw [hname] at hu hlen
    rcases tailOf_cons_cases hu with rfl | hu
    · exact absurd hlen (lt_irrefl _)
    rcases tailOf_cons_cases hu with rfl | hu
    · exact grabYear_none_run (v := [y3, y4]) (c := sep) hy2 (by simp) hsd
    rcases tailOf_cons_cases hu with rfl | hu
    · exact grabYear_none_run (v := [y4]) (c := sep) hy3 (by simp) hsd
    rcases tailOf_cons_cases hu with rfl | hu
    · exact grabYear_none_run (v := []) (c := sep) hy4 (by simp) hsd
    rcases tailOf_cons_cases hu with rfl | hu
    · exact grabYear_none_head hss hsd
    rcases tailOf_append_cases hu with ⟨v, hv, rfl⟩ | hu
    · exact grabYear_none_msRegion hmsd hmsl hsd (grabYear_none_head hss hsd) v hv
    rcases tailOf_cons_cases hu with rfl | hu
    · exact grabYear_none_head hss hsd
    rcases tailOf_append_cases hu with ⟨v, hv, rfl⟩ | hu
    · exact grabYear_none_msRegion hed hdl (by decide)
        (by rw [List.dropWhile_cons_of_pos (by decide)]
            exact grabYear_none_of_nodigit htd) v hv
    rcases tailOf_cons_cases hu with rfl | hu
    · rw [List.dropWhile_cons_of_pos (by decide)]
      exact grabYear_none_of_nodigit htd
    · exact grabYear_none_of_nodigit (fun c hc => htd c (mem_of_tailOf hu hc))

/-- Pattern 1 fails at every suffix of a `title date` name in numeric layout:
either `\d{4}` cannot start, or the year run is followed by the numeric
separator instead of `年`. -/
theorem cn1Tail_none_suffix_tIso {y1 y2 y3 y4 sep : Char} {ms t : List Char}
    {ds : Option (List Char)}
    (hy1 : pyDigit y1 = true) (hy2 : pyDigit y2 = true) (hy3 : pyDigit y3 = true)
    (hy4 : pyDigit y4 = true) (hsep : isoSep sep = true)
    (hmsd : ∀ c ∈ ms, pyDigit c = true) (hmsl : ms.length ≤ 2)
    (hds : ds = none ∨ ∃ e dd2, ds = some (e :: dd2) ∧
      (∀ c ∈ e :: dd2, pyDigit c = true) ∧ dd2.length ≤ 1)
    (hstrip : pyStripList t = t) (htd : ∀ c ∈ t, pyDigit c = false) :
    ∀ u, tailOf u (t ++ ' ' :: isoDateChars sep [y1, y2, y3, y4] ms ds) →
      cn1Tail u = none := by
  have hsd := isoSep_not_digit hsep
  have hss := isoSep_not_space hsep
  have hnotnian : ∀ R, cn1Tail (y1 :: y2 :: y3 :: y4 :: sep :: R) = none := by
    intro R
    have hg : grabYear ((y1 :: y2 :: y3 :: y4 :: sep :: R).dropWhile pySpace) =
        some (natOfDigits [y1, y2, y3, y4], sep :: R) := by
      rw [List.dropWhile_cons_of_neg (by simp [pyDigit_not_space hy1])]
      simp [grabYear, hy1, hy2, hy3, hy4, natOfDigits]
    refine cn1Tail_none_notNian hg ?_
    intro s4 heq
    rw [List.dropWhile_cons_of_neg (by simp [hss])] at heq
    injection heq with h1 _
    exact isoSep_ne_nian hsep h1
  have hspace : ∀ {L : List Char}, cn1Tail L = none → cn1Tail (' ' :: L) = none := by
    intro L h
    rw [cn1Tail_congr (u := ' ' :: L) (v := L)
      (by rw [List.dropWhile_cons_of_pos (by decide)])]
    exact h
  rcases hds with rfl | ⟨e, dd2, rfl, hed, hdd2⟩
  · have hname : isoDateChars sep [y1, y2, y3, y4] ms none =
        y1 :: y2 :: y3 :: y4 :: sep :: ms := by
      simp [isoDateChars]
    rw [hname]
    intro u hu
    rcases tailOf_append_cases hu with ⟨v, hv, rfl⟩ | hu
    · cases v with
      | nil =>
        simp only [List.nil_append]
        exact hspace (hnotnian ms)
      | cons a v2 =>
        exact (tail_none_within_title (fun c hc => htd c (mem_of_tailOf hv hc))
          (exists_nonspace_in_suffix hstrip hv (by simp))).1
    rcases tailOf_cons_cases hu with rfl | hu
    · exact hspace (hnotnian ms)
    rcases tailOf_cons_cases hu with rfl | hu
    · exact hnotnian ms
    rcases tailOf_cons_cases hu with rfl | hu
    · exact cn1Tail_none_of_grabYear
        (grabYear_none_run (v := [y3, y4]) (c := sep) hy2 (by simp) hsd)
    rcases tailOf_cons_cases hu with rfl | hu
    · exact cn1Tail_none_of_grabYear
        (grabYear_none_run (v := [y4]) (c := sep) hy3 (by simp) hsd)
    rcases tailOf_cons_cases hu with rfl | hu
    · exact cn1Tail_none_of_grabYear
        (grabYear_none_run (v := []) (c := sep) hy4 (by simp) hsd)
    rcases tailOf_cons_cases hu with rfl | hu
    · exact cn1Tail_none_of_grabYear (grabYear_none_head hss hsd)
    · exact cn1Tail_none_of_grabYear
        (grabYear_none_of_short (le_trans (tailOf_length hu) (le_trans hmsl (by omega))))
  · have hdl : (e :: dd2).length ≤ 2 := by
      simp only [List.length_cons]
      omega
    have hname : isoDateChars sep [y1, y2, y3, y4] ms (some (e :: dd2)) =
        y1 :: y2 :: y3 :: y4 :: sep :: (ms ++ (sep :: (e :: dd2))) := by
      simp [isoDateChars]
    rw [hname]
    intro u hu
    rcases tailOf_append_cases hu with ⟨v, hv, rfl⟩ | hu
    · cases v with
      | nil =>
        simp only [List.nil_append]
        exact hspace (hnotnian (ms ++ (sep :: (e :: dd2))))
      | cons a v2 =>
        exact (tail_none_within_title (fun c hc => htd c (mem_of_tailOf hv hc))
          (exists_nonspace_in_suffix hstrip hv (by simp))).1
    rcases tailOf_cons_cases hu with rfl | hu
    · exact hspace (hnotnian (ms ++ (sep :: (e :: dd2))))
    rcases tailOf_cons_cases hu with rfl | hu
    · exact hnotnian (ms ++ (sep :: (e :: dd2)))
    rcases tailOf_cons_cases hu with rfl | hu
    · exact cn1Tail_none_of_grabYear
        (grabYear_none_run (v := [y3, y4]) (c := sep) hy2 (by simp) hsd)
    rcases tailOf_cons_cases hu with rfl | hu
    · exact cn1Tail_none_of_grabYear
        (grabYear_none_run (v := [y4]) (c := sep) hy3 (by simp) hsd)
    rcases tailOf_cons_cases hu with rfl | hu
    · exact cn1Tail_none_of_grabYear
        (grabYear_none_run (v := []) (c := sep) hy4 (by simp) hsd)
    rcases tailOf_cons_cases hu with rfl | hu
    · exact cn1Tail_none_of_grabYear (grabYear_none_head hss hsd)
    rcases tailOf_append_cases hu with ⟨v, hv, rfl⟩ | hu
    · exact cn1Tail_none_of_grabYear
        (grabYear_none_msRegion hmsd hmsl hsd (grabYear_none_head hss hsd) v hv)
    rcases tailOf_cons_cases hu with rfl | hu
    · exact cn1Tail_none_of_grabYear (grabYear_none_head hss hsd)
    · exact cn1Tail_none_of_grabYear
        (grabYear_none_of_short (le_trans (tailOf_length hu) (le_trans hdl (by omega))))

theorem shapes_digits {ms : List Char}
    (hms : (∃ m1, ms = [m1] ∧ pyDigit m1 = true) ∨
           (∃ m1 m2, ms = [m1, m2] ∧ pyDigit m1 = true ∧ pyDigit m2 = true)) :
    (∀ c ∈ ms, pyDigit c = true) ∧ ms.length ≤ 2 := by
  rcases hms with ⟨m1, rfl, h1⟩ | ⟨m1, m2, rfl, h1, h2⟩ <;>
    constructor <;> simp_all

theorem shapes_day {ds : Option (List Char)}
    (hds : ds = none ∨ (∃ d1, ds = some [d1] ∧ pyDigit d1 = true) ∨
           (∃ d1 d2, ds = some [d1, d2] ∧ pyDigit d1 = true ∧ pyDigit d2 = true)) :
    ds = none ∨ ∃ e dd2, ds = some (e :: dd2) ∧
      (∀ c ∈ e :: dd2, pyDigit c = true) ∧ dd2.length ≤ 1 := by
  rcases hds with rfl | ⟨d1, rfl, h1⟩ | ⟨d1, d2, rfl, h1, h2⟩
  · exact Or.inl rfl
  · exact Or.inr ⟨d1, [], rfl, by simp [h1], by simp⟩
  · exact Or.inr ⟨d1, [d2], rfl, by simp [h1, h2], by simp⟩

/-- On `t ++ " " ++ cnDate`, the first pattern already matches, capturing
exactly `t` and the numeric components. -/
theorem firstPat_cn_titleFirst {y1 y2 y3 y4 : Char} {ms t : List Char}
    {ds : Option (List Char)} {x : Char} {xs : List Char}
    (hy1 : pyDigit y1 = true) (hy2 : pyDigit y2 = true) (hy3 : pyDigit y3 = true)
    (hy4 : pyDigit y4 = true)
    (hms : (∃ m1, ms = [m1] ∧ pyDigit m1 = true) ∨
           (∃ m1 m2, ms = [m1, m2] ∧ pyDigit m1 = true ∧ pyDigit m2 = true))
    (hds : ds = none ∨ (∃ d1, ds = some [d1] ∧ pyDigit d1 = true) ∨
           (∃ d1 d2, ds = some [d1, d2] ∧ pyDigit d1 = true ∧ pyDigit d2 = true))
    (ht : t = x :: xs) (hstrip : pyStripList t = t)
    (htd : ∀ c ∈ t, pyDigit c = false) (hnl : ∀ c ∈ t, c ≠ '\n') :
    firstPatMatch (t ++ ' ' :: cnDateChars [y1, y2, y3, y4] ms ds) =
      some ⟨t, natOfDigits [y1, y2, y3, y4], natOfDigits ms, ds.map natOfDigits⟩ := by
  have hfail : ∀ u, tailOf u t → u ≠ [] → u.length < t.length →
      cn1Tail (u ++ ' ' :: cnDateChars [y1, y2, y3, y4] ms ds) = none :=
    fun u hu hune _ => (tail_none_within_title
      (fun c hc => htd c (mem_of_tailOf hu hc))
      (exists_nonspace_in_suffix hstrip hu hune)).1
  have hlz := lazyGo_through cn1Tail t [] (' ' :: cnDateChars [y1, y2, y3, y4] ms ds)
    (natOfDigits [y1, y2, y3, y4], natOfDigits ms, ds.map natOfDigits)
    (by rw [ht]; simp) hnl hfail (cn1Tail_on_date hy1 hy2 hy3 hy4 hms hds)
  have hm1 : cn1Match (t ++ ' ' :: cnDateChars [y1, y2, y3, y4] ms ds) =
      some ⟨t, natOfDigits [y1, y2, y3, y4], natOfDigits ms, ds.map natOfDigits⟩ := by
    simp [cn1Match, hlz]
  simp [firstPatMatch, patList, List.findSome?_cons, hm1]

/-- On `cnDate ++ " " ++ t`, the first pattern fails everywhere and the
second pattern matches, capturing exactly `t` and the numeric components. -/
theorem firstPat_cn_dateFirst {y1 y2 y3 y4 : Char} {ms t : List Char}
    {ds : Option (List Char)} {x : Char} {xs : List Char}
    (hy1 : pyDigit y1 = true) (hy2 : pyDigit y2 = true) (hy3 : pyDigit y3 = true)
    (hy4 : pyDigit y4 = true)
    (hms : (∃ m1, ms = [m1] ∧ pyDigit m1 = true) ∨
           (∃ m1 m2, ms = [m1, m2] ∧ pyDigit m1 = true ∧ pyDigit m2 = true))
    (hds : ds = none ∨ (∃ d1, ds = some [d1] ∧ pyDigit d1 = true) ∨
           (∃ d1 d2, ds = some [d1, d2] ∧ pyDigit d1 = true ∧ pyDigit d2 = true))
    (ht : t = x :: xs) (hstrip : pyStripList t = t)
    (htd : ∀ c ∈ t, pyDigit c = false) (hnl : ∀ c ∈ t, c ≠ '\n') :
    firstPatMatch (cnDateChars [y1, y2, y3, y4] ms ds ++ ' ' :: t) =
      some ⟨t, natOfDigits [y1, y2, y3, y4], natOfDigits ms, ds.map natOfDigits⟩ := by
  obtain ⟨hmsd, hmsl⟩ := shapes_digits hms
  have hdsw := shapes_day hds
  have hxs : pySpace x = false := pyStripList_head_not (l := t) (by rw [hstrip, ht])
  have hxd : pyDigit x = false := htd x (by rw [ht]; exact List.mem_cons_self x xs)
  have hm1 : cn1Match (cnDateChars [y1, y2, y3, y4] ms ds ++ ' ' :: t) = none := by
    simp only [cn1Match]
    rw [lazyGo_none cn1Tail _ [] (fun u hu hlen => cn1Tail_none_of_grabYear
      (grabYear_none_suffix_cn hy2 hy3 hy4 hmsd hmsl hdsw htd u hu hlen))]
    rfl
  have hm2 := cn2Match_on_name hy1 hy2 hy3 hy4 hms hds ht hxs hxd hnl
  simp [firstPatMatch, patList, List.findSome?_cons, hm1, hm2]

/-- On `t ++ " " ++ isoDate`, the two CN patterns fail and the third pattern
matches, capturing exactly `t` and the numeric components. -/
theorem firstPat_iso_titleFirst {y1 y2 y3 y4 sep : Char} {ms t : List Char}
    {ds : Option (List Char)} {x : Char} {xs : List Char}
    (hsep : isoSep sep = true)
    (hy1 : pyDigit y1 = true) (hy2 : pyDigit y2 = true) (hy3 : pyDigit y3 = true)
    (hy4 : pyDigit y4 = true)
    (hms : (∃ m1, ms = [m1] ∧ pyDigit m1 = true) ∨
           (∃ m1 m2, ms = [m1, m2] ∧ pyDigit m1 = true ∧ pyDigit m2 = true))
    (hds : ds = none ∨ (∃ d1, ds = some [d1] ∧ pyDigit d1 = true) ∨
           (∃ d1 d2, ds = some [d1, d2] ∧ pyDigit d1 = true ∧ pyDigit d2 = true))
    (ht : t = x :: xs) (hstrip : pyStripList t = t)
    (htd : ∀ c ∈ t, pyDigit c = false) (hnl : ∀ c ∈ t, c ≠ '\n') :
    firstPatMatch (t ++ ' ' :: isoDateChars sep [y1, y2, y3, y4] ms ds) =
      some ⟨t, natOfDigits [y1, y2, y3, y4], natOfDigits ms, ds.map natOfDigits⟩ := by
  obtain ⟨hmsd, hmsl⟩ := shapes_digits hms
  have hdsw := shapes_day hds
  have hxd : pyDigit x = false := htd x (by rw [ht]; exact List.mem_cons_self x xs)
  have hm1 : cn1Match (t ++ ' ' :: isoDateChars sep [y1, y2, y3, y4] ms ds) = none := by
    simp only [cn1Match]
    rw [lazyGo_none cn1Tail _ [] (fun u hu _ => cn1Tail_none_suffix_tIso
      hy1 hy2 hy3 hy4 hsep hmsd hmsl hdsw hstrip htd u hu)]
    rfl
  have hm2 : cn2Match (t ++ ' ' :: isoDateChars sep [y1, y2, y3, y4] ms ds) = none := by
    apply cn2Match_none_of_grabYear
    rw [ht]
    exact grabYear_none_at (l := []) (by simp) hxd
  have hfail : ∀ u, tailOf u t → u ≠ [] → u.length < t.length →
      iso1Tail (u ++ ' ' :: isoDateChars sep [y1, y2, y3, y4] ms ds) = none :=
    fun u hu hune _ => (tail_none_within_title
      (fun c hc => htd c (mem_of_tailOf hu hc))
      (exists_nonspace_in_suffix hstrip hu hune)).2
  have hlz := lazyGo_through iso1Tail t []
    (' ' :: isoDateChars sep [y1, y2, y3, y4] ms ds)
    (natOfDigits [y1, y2, y3, y4], natOfDigits ms, ds.map natOfDigits)
    (by rw [ht]; simp) hnl hfail (iso1Tail_on_date hsep hy1 hy2 hy3 hy4 hms hds)
  have hm3 : iso1Match (t ++ ' ' :: isoDateChars sep [y1, y2, y3, y4] ms ds) =
      some ⟨t, natOfDigits [y1, y2, y3, y4], natOfDigits ms, ds.map natOfDigits⟩ := by
    simp [iso1Match, hlz]
  simp [firstPatMatch, patList, List.findSome?_cons, hm1, hm2, hm3]

/-- On `isoDate ++ " " ++ t`, the first three patterns fail and the fourth
matches, capturing exactly `t` and the numeric components. -/
theorem firstPat_iso_dateFirst {y1 y2 y3 y4 sep : Char} {ms t : List Char}
    {ds : Option (List Char)} {x : Char} {xs : List Char}
    (hsep : isoSep sep = true)
    (hy1 : pyDigit y1 = true) (hy2 : pyDigit y2 = true) (hy3 : pyDigit y3 = true)
    (hy4 : pyDigit y4 = true)
    (hms : (∃ m1, ms = [m1] ∧ pyDigit m1 = true) ∨
           (∃ m1 m2, ms = [m1, m2] ∧ pyDigit m1 = true ∧ pyDigit m2 = true))
    (hds : ds = none ∨ (∃ d1, ds = some [d1] ∧ pyDigit d1 = true) ∨
           (∃ d1 d2, ds = some [d1, d2] ∧ pyDigit d1 = true ∧ pyDigit d2 = true))
    (ht : t = x :: xs) (hstrip : pyStripList t = t)
    (htd : ∀ c ∈ t, pyDigit c = false) (hnl : ∀ c ∈ t, c ≠ '\n') :
    firstPatMatch (isoDateChars sep [y1, y2, y3, y4] ms ds ++ ' ' :: t) =
      some ⟨t, natOfDigits [y1, y2, y3, y4], natOfDigits ms, ds.map natOfDigits⟩ := by
  obtain ⟨hmsd, hmsl⟩ := shapes_digits hms
  have hdsw := shapes_day hds
  have hss := isoSep_not_space hsep
  have hxs : pySpace x = false := pyStripList_head_not (l := t) (by rw [hstrip, ht])
  have hxd : pyDigit x = false := htd x (by rw [ht]; exact List.mem_cons_self x xs)
  have hm1 : cn1Match (isoDateChars sep [y1, y2, y3, y4] ms ds ++ ' ' :: t) = none := by
    simp only [cn1Match]
    rw [lazyGo_none cn1Tail _ [] (fun u hu hlen => cn1Tail_none_of_grabYear
      (grabYear_none_suffix_iso hy2 hy3 hy4 hsep hmsd hmsl hdsw htd u hu hlen))]
    rfl
  have hm3 : iso1Match (isoDateChars sep [y1, y2, y3, y4] ms ds ++ ' ' :: t) = none := by
    simp only [iso1Match]
    rw [lazyGo_none iso1Tail _ [] (fun u hu hlen => iso1Tail_none_of_grabYear
      (grabYear_none_suffix_iso hy2 hy3 hy4 hsep hmsd hmsl hdsw htd u hu hlen))]
    rfl
  have hm2 : cn2Match (isoDateChars sep [y1, y2, y3, y4] ms ds ++ ' ' :: t) = none := by
    rcases hdsw with hnone | ⟨e, dd2, hsome, -, -⟩
    · rw [hnone]
      have hn : isoDateChars sep [y1, y2, y3, y4] ms none ++ ' ' :: t =
          y1 :: y2 :: y3 :: y4 :: sep :: (ms ++ ' ' :: t) := by
        simp [isoDateChars]
      rw [hn]
      refine @cn2Match_none_notNian _ (natOfDigits [y1, y2, y3, y4])
        (sep :: (ms ++ ' ' :: t)) ?_ ?_
      · simp [grabYear, hy1, hy2, hy3, hy4]
      · intro s4 heq
        rw [List.dropWhile_cons_of_neg (by simp [hss])] at heq
        injection heq with h1 _
        exact isoSep_ne_nian hsep h1
    · rw [hsome]
      have hn : isoDateChars sep [y1, y2, y3, y4] ms (some (e :: dd2)) ++ ' ' :: t =
          y1 :: y2 :: y3 :: y4 :: sep :: (ms ++ (sep :: ((e :: dd2) ++ ' ' :: t))) := by
        simp [isoDateChars]
      rw [hn]
      refine @cn2Match_none_notNian _ (natOfDigits [y1, y2, y3, y4])
        (sep :: (ms ++ (sep :: ((e :: dd2) ++ ' ' :: t)))) ?_ ?_
      · simp [grabYear, hy1, hy2, hy3, hy4]
      · intro s4 heq
        rw [List.dropWhile_cons_of_neg (by simp [hss])] at heq
        injection heq with h1 _
        exact isoSep_ne_nian hsep h1
  have hm4 := iso2Match_on_name hsep hy1 hy2 hy3 hy4 hms hds ht hxs hxd hnl
  simp [firstPatMatch, patList, List.findSome?_cons, hm1, hm2, hm3, hm4]

theorem pyStripList_eq_self_parts {A B : List Char} {x : Char} {xs : List Char}
    {c : Char} {mid : List Char}
    (hA : A = x :: xs) (hx : pySpace x = false)
    (hB : B = mid ++ [c]) (hc : pySpace c = false) :
    pyStripList (A ++ B) = A ++ B := by
  subst hA hB
  have h : (x :: xs) ++ (mid ++ [c]) = x :: ((xs ++ mid) ++ [c]) := by simp
  rw [h]
  exact pyStripList_eq_self_snoc hx hc

/-- A non-empty stripped list ends in a non-whitespace character. -/
theorem stripped_snoc {t : List Char} {x : Char} {xs : List Char}
    (ht : t = x :: xs) (hstrip : pyStripList t = t) :
    ∃ mid c, t = mid ++ [c] ∧ pySpace c = false := by
  have hne : t.reverse ≠ [] := by simp [ht]
  obtain ⟨r, rs, hr⟩ := List.exists_cons_of_ne_nil hne
  refine ⟨rs.reverse, r, ?_, pyStripList_rev_head_not (l := t) (by rw [hstrip]; exact hr)⟩
  rw [← List.reverse_reverse t, hr]
  simp

theorem cnDateChars_snoc (ys ms : List Char) (ds : Option (List Char)) :
    ∃ mid c, cnDateChars ys ms ds = mid ++ [c] ∧ pySpace c = false := by
  rcases ds with _ | dd
  · exact ⟨ys ++ [' ', '年', ' '] ++ ms ++ [' '], '月', by simp [cnDateChars], by decide⟩
  · exact ⟨ys ++ [' ', '年', ' '] ++ ms ++ [' ', '月'] ++ ([' '] ++ dd ++ [' ']), '日',
      by simp [cnDateChars], by decide⟩

theorem isoDateChars_snoc (sep : Char) (ys : List Char) {ms : List Char}
    {ds : Option (List Char)}
    (hms : (∃ m1, ms = [m1] ∧ pyDigit m1 = true) ∨
           (∃ m1 m2, ms = [m1, m2] ∧ pyDigit m1 = true ∧ pyDigit m2 = true))
    (hds : ds = none ∨ (∃ d1, ds = some [d1] ∧ pyDigit d1 = true) ∨
           (∃ d1 d2, ds = some [d1, d2] ∧ pyDigit d1 = true ∧ pyDigit d2 = true)) :
    ∃ mid c, isoDateChars sep ys ms ds = mid ++ [c] ∧ pySpace c = false := by
  rcases hds with rfl | ⟨d1, rfl, h1⟩ | ⟨d1, d2, rfl, h1, h2⟩
  · rcases hms with ⟨m1, rfl, hm1⟩ | ⟨m1, m2, rfl, hm1, hm2⟩
    · exact ⟨ys ++ [sep], m1, by simp [isoDateChars], pyDigit_not_space hm1⟩
    · exact ⟨ys ++ [sep] ++ [m1], m2, by simp [isoDateChars], pyDigit_not_space hm2⟩
  · exact ⟨ys ++ [sep] ++ ms ++ [sep], d1, by simp [isoDateChars], pyDigit_not_space h1⟩
  · exact ⟨ys ++ [sep] ++ ms ++ [sep, d1], d2, by simp [isoDateChars], pyDigit_not_space h2⟩

theorem cnDateChars_cons (y1 : Char) (ys2 ms : List Char) (ds : Option (List Char)) :
    cnDateChars (y1 :: ys2) ms ds =
      y1 :: (ys2 ++ [' ', '年', ' '] ++ ms ++ [' ', '月'] ++
        (match ds with
         | none => []
         | some dd => [' '] ++ dd ++ [' ', '日'])) := by
  simp [cnDateChars]

theorem isoDateChars_cons (sep y1 : Char) (ys2 ms : List Char) (ds : Option (List Char)) :
    isoDateChars sep (y1 :: ys2) ms ds =
      y1 :: (ys2 ++ [sep] ++ ms ++
        (match ds with
         | none => []
         | some dd => sep :: dd)) := by
  simp [isoDateChars]

/-- C1 (amended): for every folder name consisting of a non-empty,
digit-free, newline-free, stripped title next to a supported date notation —
long-form CN (`Y 年 M 月` with optional ` D 日`) or numeric
`Y<sep>M` / `Y<sep>M<sep>D` with separator dash, slash or dot, in either
title-first or date-first order — `parse_title_date` returns exactly that
title together with a date whose year, month and day are exactly the numeric
components written in the name, the day defaulting to `1` when the name has
no day component (provided those components form a valid calendar date).
The original claim quantified over *all* matching names; date-only names
falsify it (see the counterexample theorem): backtracking then steals a
digit of the month or day as the title. -/
theorem parse_title_date_recovers_components {y1 y2 y3 y4 sep : Char}
    {ms t : List Char} {ds : Option (List Char)} {x : Char} {xs : List Char}
    (hsep : isoSep sep = true)
    (hy1 : pyDigit y1 = true) (hy2 : pyDigit y2 = true) (hy3 : pyDigit y3 = true)
    (hy4 : pyDigit y4 = true)
    (hms : (∃ m1, ms = [m1] ∧ pyDigit m1 = true) ∨
           (∃ m1 m2, ms = [m1, m2] ∧ pyDigit m1 = true ∧ pyDigit m2 = true))
    (hds : ds = none ∨ (∃ d1, ds = some [d1] ∧ pyDigit d1 = true) ∨
           (∃ d1 d2, ds = some [d1, d2] ∧ pyDigit d1 = true ∧ pyDigit d2 = true))
    (ht : t = x :: xs) (hstrip : pyStripList t = t)
    (htd : ∀ c ∈ t, pyDigit c = false) (hnl : ∀ c ∈ t, c ≠ '\n')
    (hvalid : dateValid (natOfDigits [y1, y2, y3, y4]) (natOfDigits ms)
      ((ds.map natOfDigits).getD 1) = true) :
    parse_title_date ⟨t ++ ' ' :: cnDateChars [y1, y2, y3, y4] ms ds⟩ =
      (⟨t⟩, some ⟨natOfDigits [y1, y2, y3, y4], natOfDigits ms,
        (ds.map natOfDigits).getD 1⟩) ∧
    parse_title_date ⟨cnDateChars [y1, y2, y3, y4] ms ds ++ ' ' :: t⟩ =
      (⟨t⟩, some ⟨natOfDigits [y1, y2, y3, y4], natOfDigits ms,
        (ds.map natOfDigits).getD 1⟩) ∧
    parse_title_date ⟨t ++ ' ' :: isoDateChars sep [y1, y2, y3, y4] ms ds⟩ =
      (⟨t⟩, some ⟨natOfDigits [y1, y2, y3, y4], natOfDigits ms,
        (ds.map natOfDigits).getD 1⟩) ∧
    parse_title_date ⟨isoDateChars sep [y1, y2, y3, y4] ms ds ++ ' ' :: t⟩ =
      (⟨t⟩, some ⟨natOfDigits [y1, y2, y3, y4], natOfDigits ms,
        (ds.map natOfDigits).getD 1⟩) := by
  have hxs : pySpace x = false := pyStripList_head_not (l := t) (by rw [hstrip, ht])
  have hto : _to_date (natOfDigits [y1, y2, y3, y4]) (natOfDigits ms)
      (ds.map natOfDigits) =
      some ⟨natOfDigits [y1, y2, y3, y4], natOfDigits ms,
        (ds.map natOfDigits).getD 1⟩ := by
    simp [_to_date, hvalid]
  refine ⟨?_, ?_, ?_, ?_⟩
  · obtain ⟨mid, c, hmc, hc⟩ := cnDateChars_snoc [y1, y2, y3, y4] ms ds
    have hname : pyStripList (t ++ ' ' :: cnDateChars [y1, y2, y3, y4] ms ds) =
        t ++ ' ' :: cnDateChars [y1, y2, y3, y4] ms ds :=
      pyStripList_eq_self_parts ht hxs
        (show ' ' :: cnDateChars [y1, y2, y3, y4] ms ds = (' ' :: mid) ++ [c] by
          rw [hmc]; rfl) hc
    have hfm := firstPat_cn_titleFirst hy1 hy2 hy3 hy4 hms hds ht hstrip htd hnl
    simp only [parse_title_date]
    rw [hname, hfm]
    have hstrip2 : pyStripList (x :: xs) = x :: xs := ht ▸ hstrip
    simp [hstrip2, ht, hto]
  · obtain ⟨mid, c, hmc, hc⟩ := stripped_snoc ht hstrip
    have hname : pyStripList (cnDateChars [y1, y2, y3, y4] ms ds ++ ' ' :: t) =
        cnDateChars [y1, y2, y3, y4] ms ds ++ ' ' :: t :=
      pyStripList_eq_self_parts (cnDateChars_cons y1 [y2, y3, y4] ms ds)
        (pyDigit_not_space hy1)
        (show ' ' :: t = (' ' :: mid) ++ [c] by rw [hmc]; rfl) hc
    have hfm := firstPat_cn_dateFirst hy1 hy2 hy3 hy4 hms hds ht hstrip htd hnl
    simp only [parse_title_date]
    rw [hname, hfm]
    have hstrip2 : pyStripList (x :: xs) = x :: xs := ht ▸ hstrip
    simp [hstrip2, ht, hto]
  · obtain ⟨mid, c, hmc, hc⟩ := isoDateChars_snoc sep [y1, y2, y3, y4] hms hds
    have hname : pyStripList (t ++ ' ' :: isoDateChars sep [y1, y2, y3, y4] ms ds) =
        t ++ ' ' :: isoDateChars sep [y1, y2, y3, y4] ms ds :=
      pyStripList_eq_self_parts ht hxs
        (show ' ' :: isoDateChars sep [y1, y2, y3, y4] ms ds = (' ' :: mid) ++ [c] by
          rw [hmc]; rfl) hc
    have hfm := firstPat_iso_titleFirst hsep hy1 hy2 hy3 hy4 hms hds ht hstrip htd hnl
    simp only [parse_title_date]
    rw [hname, hfm]
    have hstrip2 : pyStripList (x :: xs) = x :: xs := ht ▸ hstrip
    simp [hstrip2, ht, hto]
  · obtain ⟨mid, c, hmc, hc⟩ := stripped_snoc ht hstrip
    have hname : pyStripList (isoDateChars sep [y1, y2, y3, y4] ms ds ++ ' ' :: t) =
        isoDateChars sep [y1, y2, y3, y4] ms ds ++ ' ' :: t :=
      pyStripList_eq_self_parts (isoDateChars_cons sep y1 [y2, y3, y4] ms ds)
        (pyDigit_not_space hy1)
        (show ' ' :: t = (' ' :: mid) ++ [c] by rw [hmc]; rfl) hc
    have hfm := firstPat_iso_dateFirst hsep hy1 hy2 hy3 hy4 hms hds ht hstrip htd hnl
    simp only [parse_title_date]
    rw [hname, hfm]
    have hstrip2 : pyStripList (x :: xs) = x :: xs := ht ▸ hstrip
    simp [hstrip2, ht, hto]

/-- Counterexample to C1 as stated: date-only folder names match a supported
notation, yet the recovered date does not reproduce the written components.
On `2025-08-24` the lazy/greedy interplay of the date-first numeric pattern
leaves only `4` for the mandatory non-empty title, so the day group captures
`2`, yielding 2025-08-02 instead of 2025-08-24; on `2025-08` the month group
captures `0` (title `8`), and `date(2025, 0, 1)` fails, yielding no date
instead of 2025-08-01. -/
theorem parse_title_date_c1_counterexample :
    parse_title_date "2025-08-24" = ("4", some ⟨2025, 8, 2⟩) ∧
    some (PyDate.mk 2025 8 2) ≠ some ⟨2025, 8, 24⟩ ∧
    parse_title_date "2025-08" = ("8", none) ∧
    (none : Option PyDate) ≠ some ⟨2025, 8, 1⟩ := by
  refine ⟨by decide, by decide, by decide, by decide⟩

/-- Witness for C1: the two examples named in the claim instantiate the
amended theorem — `天安门 2025 年 8 月 24 日` (title-first CN layout, and its
date-first variant) and `2025-08 Hiking` (date-first numeric layout with no
day component, day defaulting to 1). -/
theorem parse_title_date_recovers_components_witness :
    parse_title_date "天安门 2025 年 8 月 24 日" = ("天安门", some ⟨2025, 8, 24⟩) ∧
    parse_title_date "2025 年 8 月 24 日 天安门" = ("天安门", some ⟨2025, 8, 24⟩) ∧
    parse_title_date "2025-08 Hiking" = ("Hiking", some ⟨2025, 8, 1⟩) := by
  have h1 := @parse_title_date_recovers_components '2' '0' '2' '5' '-' ['8']
    "天安门".data (some ['2', '4']) '天' "安门".data
    (by decide) (by decide) (by decide) (by decide) (by decide)
    (Or.inl ⟨'8', rfl, by decide⟩)
    (Or.inr (Or.inr ⟨'2', '4', rfl, by decide, by decide⟩))
    rfl (by decide) (by decide) (by decide) (by decide)
  have h2 := @parse_title_date_recovers_components '2' '0' '2' '5' '-' ['0', '8']
    "Hiking".data none 'H' "iking".data
    (by decide) (by decide) (by decide) (by decide) (by decide)
    (Or.inr ⟨'0', '8', rfl, by decide, by decide⟩)
    (Or.inl rfl)
    rfl (by decide) (by decide) (by decide) (by decide)
  refine ⟨?_, ?_, ?_⟩
  · exact ((congrArg parse_title_date (by decide)).trans h1.1).trans (by decide)
  · exact ((congrArg parse_title_date (by decide)).trans h1.2.1).trans (by decide)
  · exact ((congrArg parse_title_date (by decide)).trans h2.2.2.2).trans (by decide)
